import Mathlib

/-!
Verification of the compressed log-chunk codec (`pkg/chunkenc/memchunk.go`).

Bytes are modelled as `List Nat` whose elements are byte values.  Machine
integers are modelled as `Nat` / `Int`; Go's `int64` timestamps are `Int`
values in `[-2^63, 2^63)`.  Compression codecs are external collaborators
(the spec treats them as opaque writer/reader pools), so every operation is
parameterised by a `CodecTable` assigning each encoding byte a
compress/decompress pair; theorems that need it assume the decompress-after-
compress identity and witnesses instantiate the table with the identity
codec (encoding `none`).
-/

namespace Chunkenc

abbrev Bytes := List Nat

/-! ## Codec primitives.
Modelled from the spec: varint/uvarint encoders and CRC32-Castagnoli hashing
are listed as codec primitives of the repository (`encoding/binary` varints
and `hash/crc32` in the source); they are not under `src/`. -/

/-- Go `binary.PutUvarint`: little-endian 7-bit groups, high bit marks
continuation. -/
def putUvarint (x : Nat) : Bytes :=
  if h : x < 128 then [x]
  else (x % 128 + 128) :: putUvarint (x / 128)
termination_by x
decreasing_by
  exact Nat.div_lt_self (by omega) (by omega)

/-- Go zigzag encoding of an `int64` (`uint64(x) << 1`, complemented when
negative), expressed directly on the mathematical integer. -/
def zigzag (t : Int) : Nat :=
  if 0 ≤ t then (2 * t).toNat else (-2 * t - 1).toNat

/-- Go `binary.PutVarint`. -/
def putVarint (t : Int) : Bytes := putUvarint (zigzag t)

/-- Loop of Go `binary.Uvarint`.  `i` is the byte index, `s` the current
shift, `x` the accumulator.  Go accumulates with `x |= uint64(b&0x7f) << s`;
the 7-bit groups occupy disjoint bit ranges, so the `or` is addition here.
Returns the decoded value and the Go width: `> 0` on success, `0` when the
buffer ran out, `< 0` on overflow (more than 10 bytes, or a 10th byte above
1). -/
def goUvarintAux : Bytes → Nat → Nat → Nat → Nat × Int
  | [], _, _, _ => (0, 0)
  | b :: rest, i, s, x =>
    if i = 10 then (0, -(11 : Int))
    else if b % 256 < 128 then
      if i = 9 ∧ b % 256 > 1 then (0, -(10 : Int))
      else (x + (b % 256) * 2 ^ s, ((i + 1 : Nat) : Int))
    else goUvarintAux rest (i + 1) (s + 7) (x + (b % 256 % 128) * 2 ^ s)

/-- Go `binary.Uvarint`. -/
def goUvarint (b : Bytes) : Nat × Int := goUvarintAux b 0 0 0

/-- Go `binary.Varint`: uvarint then zigzag decode (`x = int64(ux>>1)`,
complemented when the low bit is set); the width passes through. -/
def goVarint (b : Bytes) : Int × Int :=
  let p := goUvarint b
  (if p.1 % 2 = 1 then -((p.1 / 2 : Nat) : Int) - 1 else ((p.1 / 2 : Nat) : Int), p.2)

/-- Big-endian 4-byte encoding (`binary.BigEndian.PutUint32`). -/
def putBE32 (x : Nat) : Bytes :=
  [x / 2 ^ 24 % 256, x / 2 ^ 16 % 256, x / 2 ^ 8 % 256, x % 256]

/-- Big-endian 8-byte encoding (`binary.BigEndian.PutUint64`). -/
def putBE64 (x : Nat) : Bytes :=
  [x / 2 ^ 56 % 256, x / 2 ^ 48 % 256, x / 2 ^ 40 % 256, x / 2 ^ 32 % 256,
   x / 2 ^ 24 % 256, x / 2 ^ 16 % 256, x / 2 ^ 8 % 256, x % 256]

/-- Big-endian 4-byte read (`binary.BigEndian.Uint32`); Go panics when fewer
than 4 bytes remain, here the missing-byte case returns 0 and the theorems
keep all reads in bounds. -/
def be32 : Bytes → Nat
  | b0 :: b1 :: b2 :: b3 :: _ => ((b0 % 256 * 256 + b1 % 256) * 256 + b2 % 256) * 256 + b3 % 256
  | _ => 0

/-- Big-endian 8-byte read (`binary.BigEndian.Uint64`). -/
def be64 : Bytes → Nat
  | b0 :: b1 :: b2 :: b3 :: b4 :: b5 :: b6 :: b7 :: _ =>
    ((((((b0 % 256 * 256 + b1 % 256) * 256 + b2 % 256) * 256 + b3 % 256) * 256 + b4 % 256) * 256
        + b5 % 256) * 256 + b6 % 256) * 256 + b7 % 256
  | _ => 0

/-- One bit step of the reflected CRC32 with the Castagnoli polynomial
`0x82F63B78` (the table built by `crc32.MakeTable(crc32.Castagnoli)` is the
8-fold iterate of this step). -/
def crc32Step (c : Nat) : Nat :=
  if c % 2 = 1 then (c / 2) ^^^ 0x82F63B78 else c / 2

/-- Feed one byte into the CRC state. -/
def crc32Byte (c b : Nat) : Nat := (crc32Step)^[8] (c ^^^ (b % 256))

/-- `crc32.Checksum(data, castagnoliTable)`. -/
def crc32C (bs : Bytes) : Nat := (bs.foldl crc32Byte 0xFFFFFFFF) ^^^ 0xFFFFFFFF

/-! ## Round-trip facts for the primitives -/

theorem putUvarint_small (x : Nat) (h : x < 128) : putUvarint x = [x] := by
  rw [putUvarint]; simp [h]

theorem putUvarint_large (x : Nat) (h : ¬ x < 128) :
    putUvarint x = (x % 128 + 128) :: putUvarint (x / 128) := by
  rw [putUvarint]; simp [h]

theorem putUvarint_ne_nil (x : Nat) : putUvarint x ≠ [] := by
  by_cases h : x < 128
  · simp [putUvarint_small x h]
  · simp [putUvarint_large x h]

theorem putUvarint_length_pos (x : Nat) : 0 < (putUvarint x).length := by
  cases hl : putUvarint x with
  | nil => exact absurd hl (putUvarint_ne_nil x)
  | cons a l => simp

/-- Length of the uvarint encoding: at most one byte per 7 bits. -/
theorem putUvarint_length_le : ∀ k : Nat, 1 ≤ k →
    ∀ x : Nat, x < 2 ^ (7 * k) → (putUvarint x).length ≤ k := by
  intro k
  induction k with
  | zero => intro h; omega
  | succ n ih =>
    intro _ x hx
    by_cases h : x < 128
    · rw [putUvarint_small x h]
      simp only [List.length_cons, List.length_nil]
      omega
    · rw [putUvarint_large x h]
      have hn : 1 ≤ n := by
        by_contra hn0
        have hn' : n = 0 := by omega
        subst hn'
        have h128 : (2 : Nat) ^ (7 * (0 + 1)) = 128 := by norm_num
        omega
      have hdiv : x / 128 < 2 ^ (7 * n) := by
        have h1 : x < 128 * 2 ^ (7 * n) := by
          have h2 : 7 * (n + 1) = 7 * n + 7 := by ring
          rw [h2, Nat.pow_add] at hx
          calc x < 2 ^ (7 * n) * 2 ^ 7 := hx
            _ = 128 * 2 ^ (7 * n) := by ring
        exact Nat.div_lt_of_lt_mul h1
      have := ih hn (x / 128) hdiv
      simp only [List.length_cons]
      omega

theorem goUvarintAux_spec (x : Nat) :
    ∀ (i acc : Nat) (rest : Bytes), i ≤ 9 → x < 2 ^ (64 - 7 * i) →
    goUvarintAux (putUvarint x ++ rest) i (7 * i) acc =
      (acc + x * 2 ^ (7 * i), ((i + (putUvarint x).length : Nat) : Int)) := by
  induction x using Nat.strong_induction_on with
  | _ x ih =>
    intro i acc rest hi hx
    by_cases h : x < 128
    · rw [putUvarint_small x h]
      simp only [List.cons_append, goUvarintAux]
      have hi10 : ¬ i = 10 := by omega
      have hxmod : x % 256 = x := Nat.mod_eq_of_lt (by omega)
      rw [if_neg hi10, hxmod, if_pos h]
      have hguard : ¬ (i = 9 ∧ x > 1) := by
        rintro ⟨h9, hx1⟩
        subst h9
        simp only [show 64 - 7 * 9 = 1 by norm_num, pow_one] at hx
        omega
      rw [if_neg hguard]
      simp [putUvarint_small x h]
    · rw [putUvarint_large x h]
      simp only [List.cons_append, goUvarintAux]
      have hi10 : ¬ i = 10 := by omega
      have hb : (x % 128 + 128) % 256 = x % 128 + 128 := by
        have := Nat.mod_lt x (show 0 < 128 by norm_num)
        omega
      have hblt : ¬ (x % 128 + 128) % 256 < 128 := by rw [hb]; omega
      rw [if_neg hi10, if_neg hblt]
      have hi9 : i ≤ 8 := by
        by_contra hcon
        have h9 : i = 9 := by omega
        subst h9
        simp only [show 64 - 7 * 9 = 1 by norm_num, pow_one] at hx
        omega
      have hdiv : x / 128 < 2 ^ (64 - 7 * (i + 1)) := by
        have h7 : 64 - 7 * i = (64 - 7 * (i + 1)) + 7 := by omega
        rw [h7, Nat.pow_add] at hx
        have h1 : x < 128 * 2 ^ (64 - 7 * (i + 1)) := by
          calc x < 2 ^ (64 - 7 * (i + 1)) * 2 ^ 7 := hx
            _ = 128 * 2 ^ (64 - 7 * (i + 1)) := by ring
        exact Nat.div_lt_of_lt_mul h1
      have hrec := ih (x / 128) (Nat.div_lt_self (by omega) (by norm_num))
        (i + 1) (acc + ((x % 128 + 128) % 128) * 2 ^ (7 * i)) rest (by omega) hdiv
      have h71 : 7 * (i + 1) = 7 * i + 7 := by ring
      rw [h71] at hrec
      rw [hb] at *
      have hmod : (x % 128 + 128) % 128 = x % 128 := by omega
      rw [hmod] at hrec ⊢
      simp only [List.append_eq] at hrec ⊢
      rw [hrec]
      rw [Prod.mk.injEq]
      constructor
      · have hx' : x % 128 + 128 * (x / 128) = x := by omega
        calc acc + x % 128 * 2 ^ (7 * i) + x / 128 * 2 ^ (7 * i + 7)
            = acc + (x % 128 + 128 * (x / 128)) * 2 ^ (7 * i) := by
              rw [Nat.pow_add]; ring
          _ = acc + x * 2 ^ (7 * i) := by rw [hx']
      · simp only [List.length_cons]
        congr 1
        omega

/-- Uvarint round-trip: decoding an encoded value (with anything after it)
returns the value and consumes exactly the encoding. -/
theorem goUvarint_putUvarint (x : Nat) (rest : Bytes) (hx : x < 2 ^ 64) :
    goUvarint (putUvarint x ++ rest) = (x, ((putUvarint x).length : Int)) := by
  have := goUvarintAux_spec x 0 0 rest (by omega) (by simpa using hx)
  simpa [goUvarint] using this

theorem zigzag_lt (t : Int) (h1 : -(2 ^ 63) ≤ t) (h2 : t < 2 ^ 63) :
    zigzag t < 2 ^ 64 := by
  unfold zigzag
  split <;> omega

/-- Varint round-trip on the `int64` range. -/
theorem goVarint_putVarint (t : Int) (rest : Bytes)
    (h1 : -(2 ^ 63) ≤ t) (h2 : t < 2 ^ 63) :
    goVarint (putVarint t ++ rest) = (t, ((putVarint t).length : Int)) := by
  unfold putVarint goVarint
  rw [goUvarint_putUvarint (zigzag t) rest (zigzag_lt t h1 h2)]
  unfold zigzag
  by_cases h : 0 ≤ t
  · simp only [if_pos h]
    have h2t : (2 * t).toNat % 2 = 0 := by omega
    simp only [h2t]
    norm_num
    omega
  · simp only [if_neg h]
    have hodd : (-2 * t - 1).toNat % 2 = 1 := by omega
    simp only [hodd]
    norm_num
    omega

theorem be32_putBE32 (x : Nat) (rest : Bytes) (hx : x < 2 ^ 32) :
    be32 (putBE32 x ++ rest) = x := by
  simp only [putBE32, List.cons_append, List.nil_append, be32]
  omega

/-! ## Entries, structured labels, symbol table -/

abbrev Labels := List (Bytes × Bytes)

/-- A log entry: the fields of the source `entry` struct (`t`, `s`,
`nonIndexedLabels`), with the line as raw bytes. -/
structure LEntry where
  t : Int
  s : Bytes
  nonIndexedLabels : Labels
deriving DecidableEq, Repr

/-- Well-formed entry for the theorems: a positive `int64` timestamp, a line
shorter than `maxLineLength`, and no structured labels (the source nils the
labels of every entry appended to a pre-v4 chunk, and the ordered head block
stores none). -/
def wfEntry (e : LEntry) : Prop :=
  1 ≤ e.t ∧ e.t < 2 ^ 63 ∧ e.s.length < 2 ^ 30 ∧ e.nonIndexedLabels = []

instance (e : LEntry) : Decidable (wfEntry e) := by
  unfold wfEntry; infer_instance

/-- Modelled from the spec: the symbol table (symbolizer, not under `src/`)
interns label strings into `u32` indices assigned in insertion order, and
tracks an uncompressed size (total bytes of the interned strings). -/
structure Symbolizer where
  syms : List Bytes
  size : Nat
deriving DecidableEq, Repr

def newSymbolizer : Symbolizer := ⟨[], 0⟩

def Symbolizer.addStr (sy : Symbolizer) (s : Bytes) : Symbolizer :=
  if s ∈ sy.syms then sy else ⟨sy.syms ++ [s], sy.size + s.length⟩

def Symbolizer.Add (sy : Symbolizer) (ls : Labels) : Symbolizer :=
  ls.foldl (fun a p => (a.addStr p.1).addStr p.2) sy

def Symbolizer.UncompressedSize (sy : Symbolizer) : Nat := sy.size

def Symbolizer.symRef (sy : Symbolizer) (s : Bytes) : Nat :=
  sy.syms.findIdx (· == s)

def Symbolizer.Lookup (sy : Symbolizer) (refs : List (Nat × Nat)) : Labels :=
  refs.map (fun r => (sy.syms.getD r.1 [], sy.syms.getD r.2 []))

/-- Modelled from the spec: `structured_labels_encoded_size(entry)` used by
the space-admission estimate (`metaLabelsLen` is not under `src/`). -/
def metaLabelsLen (ls : Labels) : Nat :=
  ls.foldl (fun a p => a + p.1.length + p.2.length) 0

/-- `maxLineLength = 1024 * 1024 * 1024` from the source. -/
def maxLineLength : Nat := 1024 * 1024 * 1024

/-! ## Entry stream encoding (head serialisation, §4.2) -/

/-- Pre-v4 entry encoding written by `headBlock.Serialise`:
`varint(t) uvarint(len(line)) line`. -/
def encEntry (e : LEntry) : Bytes :=
  putVarint e.t ++ putUvarint e.s.length ++ e.s

/-- v4 symbols section of one entry: `uvarint(section_len) uvarint(n)`
followed by `n` pairs of uvarint symbol references; the section length
counts the count field and the pairs. -/
def encSymbolsSection (sy : Symbolizer) (ls : Labels) : Bytes :=
  let pairs := ls.map fun p => (sy.symRef p.1, sy.symRef p.2)
  let symBytes := (pairs.map fun q => putUvarint q.1 ++ putUvarint q.2).flatten
  let nBytes := putUvarint pairs.length
  putUvarint (nBytes.length + symBytes.length) ++ nBytes ++ symBytes

/-- v4 entry encoding (§4.2). -/
def encEntry4 (sy : Symbolizer) (e : LEntry) : Bytes :=
  encEntry e ++ encSymbolsSection sy e.nonIndexedLabels

/-- The uncompressed payload serialised from a list of head entries. -/
def encEntries (es : List LEntry) : Bytes := (es.map encEntry).flatten

def encEntries4 (sy : Symbolizer) (es : List LEntry) : Bytes :=
  (es.map (encEntry4 sy)).flatten

/-- Decode `n` uvarint symbol-reference pairs. -/
def decSymPairs : Nat → Bytes → Option (List (Nat × Nat) × Bytes)
  | 0, b => some ([], b)
  | n + 1, b =>
    let pn := goUvarint b
    if pn.2 ≤ 0 then none
    else
      let b1 := b.drop pn.2.toNat
      let pv := goUvarint b1
      if pv.2 ≤ 0 then none
      else
        match decSymPairs n (b1.drop pv.2.toNat) with
        | some pr => some ((pn.1, pv.1) :: pr.1, pr.2)
        | none => none

theorem decSymPairs_length :
    ∀ (n : Nat) (b : Bytes) (p : List (Nat × Nat) × Bytes),
    decSymPairs n b = some p → p.2.length ≤ b.length := by
  intro n
  induction n with
  | zero =>
    intro b p h
    simp only [decSymPairs, Option.some.injEq] at h
    rw [← h]
  | succ m ih =>
    intro b p h
    simp only [decSymPairs] at h
    split at h
    · exact absurd h (by simp)
    · split at h
      · exact absurd h (by simp)
      · split at h
        next pr heq =>
          have h2 := ih _ _ heq
          simp only [Option.some.injEq] at h
          rw [← h]
          simp only [List.length_drop] at h2 ⊢
          omega
        next => exact absurd h (by simp)

/-- Parse one entry header: timestamp varint then line-length uvarint, with
the iterator's `maxLineLength` check; returns the timestamp, line length and
the bytes after the two varints. -/
def decEntryHead (b : Bytes) : Option (Int × Nat × Bytes) :=
  let pt := goVarint b
  if pt.2 ≤ 0 then none
  else
    let b1 := b.drop pt.2.toNat
    let pl := goUvarint b1
    if pl.2 ≤ 0 then none
    else if pl.1 ≥ maxLineLength then none
    else some (pt.1, pl.1, b1.drop pl.2.toNat)

theorem decEntryHead_length (b : Bytes) (t : Int) (l : Nat) (b2 : Bytes)
    (h : decEntryHead b = some (t, l, b2)) : b2.length + 1 ≤ b.length := by
  unfold decEntryHead at h
  cases b with
  | nil => simp [goVarint, goUvarint, goUvarintAux] at h
  | cons a rest =>
    simp only at h
    split at h
    · exact absurd h (by simp)
    · split at h
      · exact absurd h (by simp)
      · split at h
        · exact absurd h (by simp)
        · simp only [Option.some.injEq, Prod.mk.injEq] at h
          obtain ⟨_, _, h3⟩ := h
          rw [← h3]
          simp only [List.length_drop, List.length_cons]
          omega

/-- Parse the v4 symbols section of one entry: section length, count, then
the reference pairs. -/
def decEntrySyms (b : Bytes) : Option (List (Nat × Nat) × Bytes) :=
  let ps := goUvarint b
  if ps.2 ≤ 0 then none
  else
    let b1 := b.drop ps.2.toNat
    let pn := goUvarint b1
    if pn.2 ≤ 0 then none
    else decSymPairs pn.1 (b1.drop pn.2.toNat)

theorem decEntrySyms_length (b : Bytes) (p : List (Nat × Nat) × Bytes)
    (h : decEntrySyms b = some p) : p.2.length ≤ b.length := by
  simp only [decEntrySyms] at h
  split at h
  · exact absurd h (by simp)
  · split at h
    · exact absurd h (by simp)
    · have h2 := decSymPairs_length _ _ _ h
      simp only [List.length_drop] at h2 ⊢
      omega

/-- The stream-level decoder of a sealed block's uncompressed payload: the
entry stream read by the streaming block iterator (§4.4), with the
fixed-size read-buffer mechanics modelled separately (`moveNextM`).  For v4
the per-entry symbols section is resolved through the symbol table.
Returns the decoded prefix and whether decoding stopped with an error. -/
def decodeEntriesP (fmt : Nat) (sy : Symbolizer) (b : Bytes) : List LEntry × Bool :=
  if hb : b.length = 0 then ([], false)
  else
    match hd : decEntryHead b with
    | none => ([], true)
    | some (t, l, b2) =>
      if b2.length < l then ([], true)
      else
        if fmt < 4 then
          let r := decodeEntriesP fmt sy (b2.drop l)
          (⟨t, b2.take l, []⟩ :: r.1, r.2)
        else
          match hs : decEntrySyms (b2.drop l) with
          | none => ([], true)
          | some (refs, rest) =>
            let r := decodeEntriesP fmt sy rest
            (⟨t, b2.take l, sy.Lookup refs⟩ :: r.1, r.2)
termination_by b.length
decreasing_by
  · have h1 := decEntryHead_length b t l b2 hd
    simp only [List.length_drop]
    omega
  · have h1 := decEntryHead_length b t l b2 hd
    have h2 := decEntrySyms_length _ _ hs
    simp only [List.length_drop] at h2 ⊢
    omega

/-! ## Entry-stream round-trip -/

theorem putVarint_length_pos (t : Int) : 0 < (putVarint t).length :=
  putUvarint_length_pos (zigzag t)

theorem decEntryHead_enc (e : LEntry) (rest : Bytes)
    (h1 : -(2 ^ 63) ≤ e.t) (h2 : e.t < 2 ^ 63) (h3 : e.s.length < 2 ^ 30) :
    decEntryHead (encEntry e ++ rest) = some (e.t, e.s.length, e.s ++ rest) := by
  have hassoc : encEntry e ++ rest =
      putVarint e.t ++ (putUvarint e.s.length ++ (e.s ++ rest)) := by
    simp [encEntry]
  rw [hassoc]
  simp only [decEntryHead]
  rw [goVarint_putVarint e.t _ h1 h2]
  have htw : ¬ (((putVarint e.t).length : Int) ≤ 0 : Prop) := by
    have := putVarint_length_pos e.t
    omega
  simp only [if_neg htw, Int.toNat_natCast]
  rw [List.drop_left]
  rw [goUvarint_putUvarint e.s.length _ (by omega)]
  have hlw : ¬ (((putUvarint e.s.length).length : Int) ≤ 0 : Prop) := by
    have := putUvarint_length_pos e.s.length
    omega
  have hmax : ¬ e.s.length ≥ maxLineLength := by
    have : maxLineLength = 2 ^ 30 := by norm_num [maxLineLength]
    omega
  simp only [if_neg hlw, if_neg hmax, Int.toNat_natCast]
  rw [List.drop_left]

/-- Decoding the serialised entry stream of a head block recovers exactly
the entries (pre-v4 encoding). -/
theorem decodeEntriesP_encEntries (fmt : Nat) (hfmt : fmt < 4) (sy : Symbolizer) :
    ∀ es : List LEntry, (∀ e ∈ es, wfEntry e) →
    decodeEntriesP fmt sy (encEntries es) = (es, false) := by
  intro es
  induction es with
  | nil =>
    intro _
    simp [encEntries, decodeEntriesP]
  | cons e tl ih =>
    intro hwf
    have hwfe := hwf e (by simp)
    obtain ⟨ht1, ht2, hs3, hlab⟩ := hwfe
    have henc : encEntries (e :: tl) = encEntry e ++ encEntries tl := by
      simp [encEntries]
    rw [henc, decodeEntriesP]
    have hne : ¬ (encEntry e ++ encEntries tl).length = 0 := by
      simp only [List.length_append, encEntry, List.length_cons]
      have := putVarint_length_pos e.t
      omega
    rw [dif_neg hne]
    rw [decEntryHead_enc e _ (by omega) ht2 hs3]
    have hlen : ¬ (e.s ++ encEntries tl).length < e.s.length := by
      simp only [List.length_append]
      omega
    simp only [if_neg hlen, if_pos hfmt, List.take_left, List.drop_left]
    rw [ih (fun x hx => hwf x (by simp [hx]))]
    have hee : (⟨e.t, e.s, []⟩ : LEntry) = e := by
      cases e with
      | mk t s ls =>
        simp only at hlab
        simp [hlab]
    rw [hee]

/-! ## Errors, codecs, constants -/

inductive ChunkErr where
  | ErrOutOfOrder
  | ErrInvalidChecksum
  | ErrSliceNoDataInRange
  | ErrInvalidMagic (m : Nat)
  | ErrInvalidVersion (v : Nat)
  | decodeErr (msg : String)
  | depthExceeded
deriving DecidableEq, Repr

/-- A compression codec: the writer/reader pool pair of the source,
modelled as plain byte-stream functions (the spec treats codec internals as
out of scope). -/
structure Codec where
  compress : Bytes → Bytes
  decompress : Bytes → Bytes

/-- Assignment of codecs to encoding bytes (`getWriterPool`/`getReaderPool`). -/
abbrev CodecTable := Nat → Codec

/-- The `none` codec: the identity on byte streams. -/
def idCodec : Codec := ⟨id, id⟩

def idTable : CodecTable := fun _ => idCodec

def EncNone : Nat := 0
def EncGZIP : Nat := 1

def chunkFormatV1 : Nat := 1
def chunkFormatV2 : Nat := 2
def chunkFormatV3 : Nat := 3
def chunkFormatV4 : Nat := 4
def DefaultChunkFormat : Nat := chunkFormatV3
def OrderedHeadBlockFmt : Nat := 3
def UnorderedHeadBlockFmt : Nat := 4
def UnorderedWithNonIndexedLabelsHeadBlockFmt : Nat := 5
def DefaultHeadBlockFmt : Nat := UnorderedHeadBlockFmt
def blocksPerChunk : Nat := 10
def defaultBlockSize : Nat := 256 * 1024
def magicNumber : Nat := 0x12EE56A
def chunkMetasSectionIdx : Nat := 1
def chunkNonIndexedLabelsSectionIdx : Nat := 2

/-! ## Head blocks -/

/-- The ordered head block (`headBlock` in the source). -/
structure headBlock where
  entries : List LEntry := []
  size : Nat := 0
  mint : Int := 0
  maxt : Int := 0
deriving DecidableEq, Repr

def headBlock.IsEmpty (hb : headBlock) : Bool := hb.entries.isEmpty

/-- `headBlock.Append`: rejects a timestamp strictly below `maxt` when
non-empty; stores the entry without labels (the source ignores the labels
argument); updates `mint` with the source's `mint == 0` sentinel check. -/
def headBlock.Append (hb : headBlock) (ts : Int) (line : Bytes) :
    Except ChunkErr headBlock :=
  if ¬ hb.entries.isEmpty = true ∧ hb.maxt > ts then .error .ErrOutOfOrder
  else .ok
    { entries := hb.entries ++ [⟨ts, line, []⟩]
      mint := if hb.mint = 0 ∨ hb.mint > ts then ts else hb.mint
      maxt := ts
      size := hb.size + line.length }

/-- Modelled from the spec: the unordered head block (§4.3, not under
`src/`): accepts any timestamp, keeps entries in append order (the sort is
applied at read time), preserves labels only in the
with-structured-labels variant, counts only line bytes in `size`, and
maintains true `mint`/`maxt` bounds. -/
structure unorderedHeadBlock where
  fmt : Nat
  entries : List LEntry := []
  size : Nat := 0
  mint : Int := 0
  maxt : Int := 0
deriving DecidableEq, Repr

def newUnorderedHeadBlock (fmt : Nat) : unorderedHeadBlock := { fmt := fmt }

def unorderedHeadBlock.Append (hb : unorderedHeadBlock) (ts : Int) (line : Bytes)
    (ls : Labels) : unorderedHeadBlock :=
  { hb with
    entries := hb.entries ++ [⟨ts, line, if hb.fmt ≥ 5 then ls else []⟩]
    size := hb.size + line.length
    mint := if hb.entries.isEmpty ∨ ts < hb.mint then ts else hb.mint
    maxt := if hb.entries.isEmpty ∨ ts > hb.maxt then ts else hb.maxt }

/-- The head of a chunk: ordered (source) or unordered (spec-modelled). -/
inductive HeadBlock where
  | ordered : headBlock → HeadBlock
  | unordered : unorderedHeadBlock → HeadBlock
deriving DecidableEq, Repr

def HeadBlock.IsEmpty : HeadBlock → Bool
  | .ordered hb => hb.IsEmpty
  | .unordered hb => hb.entries.isEmpty

/-- `Entries()`: the number of entries held. -/
def HeadBlock.EntriesN : HeadBlock → Nat
  | .ordered hb => hb.entries.length
  | .unordered hb => hb.entries.length

def HeadBlock.entriesList : HeadBlock → List LEntry
  | .ordered hb => hb.entries
  | .unordered hb => hb.entries

def HeadBlock.UncompressedSizeH : HeadBlock → Nat
  | .ordered hb => hb.size
  | .unordered hb => hb.size

def HeadBlock.BoundsH : HeadBlock → Int × Int
  | .ordered hb => (hb.mint, hb.maxt)
  | .unordered hb => (hb.mint, hb.maxt)

/-- `Format()` of the head block. -/
def HeadBlock.FormatH : HeadBlock → Nat
  | .ordered _ => OrderedHeadBlockFmt
  | .unordered hb => hb.fmt

def HeadBlock.ResetH : HeadBlock → HeadBlock
  | .ordered _ => .ordered {}
  | .unordered hb => .unordered (newUnorderedHeadBlock hb.fmt)

/-- Head append with symbol-table interning (the unordered-with-labels head
interns the pairs of every appended entry; the ordered head ignores
labels). -/
def HeadBlock.AppendH (h : HeadBlock) (sy : Symbolizer) (ts : Int) (line : Bytes)
    (ls : Labels) : Except ChunkErr (HeadBlock × Symbolizer) :=
  match h with
  | .ordered hb => (hb.Append ts line).map (fun hb' => (.ordered hb', sy))
  | .unordered hb =>
    .ok (.unordered (hb.Append ts line ls), if hb.fmt ≥ 5 then sy.Add ls else sy)

/-- Head serialisation into a compressed block payload.  The source's
ordered `headBlock.Serialise` always writes the pre-v4 entry encoding; the
unordered head (spec-modelled) writes entries in append order using the
chunk format's encoding. -/
def HeadBlock.SerialiseH (h : HeadBlock) (ct : CodecTable) (enc fmtC : Nat)
    (sy : Symbolizer) : Bytes :=
  match h with
  | .ordered hb => (ct enc).compress (encEntries hb.entries)
  | .unordered hb =>
    (ct enc).compress
      (if fmtC < 4 then encEntries hb.entries else encEntries4 sy hb.entries)

/-- `HeadBlockFmt.NewBlock`. -/
def headBlockFromFmt (fmt : Nat) : HeadBlock :=
  if fmt < UnorderedHeadBlockFmt then .ordered {}
  else .unordered (newUnorderedHeadBlock fmt)

/-! ## The chunk -/

/-- A sealed block (`block` in the source). -/
structure Block where
  b : Bytes
  numEntries : Nat
  mint : Int
  maxt : Int
  offset : Nat
  uncompressedSize : Nat
deriving DecidableEq, Repr

structure MemChunk where
  blockSize : Nat
  targetSize : Nat
  symbolizer : Symbolizer
  blocks : List Block
  cutBlockSize : Nat
  head : HeadBlock
  format : Nat
  encoding : Nat
  headFmt : Nat
  compressedSize : Nat
deriving DecidableEq, Repr

def newMemChunkWithFormat (format enc headF blockSize targetSize : Nat) : MemChunk :=
  { blockSize := blockSize
    targetSize := targetSize
    symbolizer := newSymbolizer
    blocks := []
    cutBlockSize := 0
    head := headBlockFromFmt headF
    format := format
    encoding := enc
    headFmt := headF
    compressedSize := 0 }

def NewMemChunk (enc headF blockSize targetSize : Nat) : MemChunk :=
  newMemChunkWithFormat DefaultChunkFormat enc headF blockSize targetSize

/-- `cut`: a no-op on an empty head, otherwise serialise the head, append
the sealed block with the head's current entry count, bounds and
uncompressed size, account its compressed length, and reset the head. -/
def MemChunk.cut (ct : CodecTable) (c : MemChunk) : MemChunk :=
  if c.head.IsEmpty then c
  else
    let b := c.head.SerialiseH ct c.encoding c.format c.symbolizer
    let bd := c.head.BoundsH
    { c with
      blocks := c.blocks ++
        [{ b := b, numEntries := c.head.EntriesN, mint := bd.1, maxt := bd.2,
           offset := 0, uncompressedSize := c.head.UncompressedSizeH }]
      cutBlockSize := c.cutBlockSize + b.length
      head := c.head.ResetH }

def lastBlockMaxt (bs : List Block) : Int := (bs.getLast?).elim 0 (·.maxt)

/-- `MemChunk.Append`.  Returns the updated chunk, the caller's entry as
left by the call (the source mutates `entry.NonIndexedLabels` in place for
pre-v4 formats), and the error if any. -/
def MemChunk.Append (ct : CodecTable) (c : MemChunk) (e : LEntry) :
    MemChunk × LEntry × Option ChunkErr :=
  if c.headFmt < UnorderedHeadBlockFmt ∧ c.head.IsEmpty ∧ c.blocks ≠ [] ∧
      lastBlockMaxt c.blocks > e.t then
    (c, e, some .ErrOutOfOrder)
  else
    let e' := if c.format < chunkFormatV4 then { e with nonIndexedLabels := [] } else e
    match c.head.AppendH c.symbolizer e.t e'.s e'.nonIndexedLabels with
    | .error er => (c, e', some er)
    | .ok hs =>
      let c' := { c with head := hs.1, symbolizer := hs.2 }
      if c'.head.UncompressedSizeH ≥ c.blockSize then (c'.cut ct, e', none)
      else (c', e', none)

def MemChunk.Size (c : MemChunk) : Nat :=
  (c.blocks.foldl (fun a b => a + b.numEntries) 0) + c.head.EntriesN

def MemChunk.BlockCount (c : MemChunk) : Nat := c.blocks.length

def MemChunk.Encoding (c : MemChunk) : Nat := c.encoding

/-- `SpaceFor`: the admission estimate. -/
def MemChunk.SpaceFor (c : MemChunk) (e : LEntry) : Bool :=
  if c.targetSize > 0 then
    let newHBSize := c.head.UncompressedSizeH + e.s.length +
      (if c.format ≥ chunkFormatV4 then metaLabelsLen e.nonIndexedLabels else 0)
    let nonIndexedLabelsSize :=
      if c.format ≥ chunkFormatV4 then c.symbolizer.UncompressedSize else 0
    decide (nonIndexedLabelsSize + c.cutBlockSize + newHBSize < c.targetSize)
  else decide (c.blocks.length < blocksPerChunk)

def MemChunk.UncompressedSizeC (c : MemChunk) : Nat :=
  c.head.UncompressedSizeH +
    (c.blocks.foldl (fun a b => a + b.uncompressedSize) 0) +
    (if c.format ≥ chunkFormatV4 then c.symbolizer.UncompressedSize else 0)

def MemChunk.CompressedSizeC (c : MemChunk) : Nat :=
  if c.compressedSize ≠ 0 then c.compressedSize
  else
    c.head.UncompressedSizeH +
      (if c.format ≥ chunkFormatV4 then c.symbolizer.UncompressedSize else 0) +
      c.cutBlockSize

/-- `Bounds`: start from the head's bounds and widen over all blocks, with
the source's `from == 0` sentinel check. -/
def MemChunk.BoundsC (c : MemChunk) : Int × Int :=
  c.blocks.foldl
    (fun ft b =>
      (if ft.1 = 0 ∨ ft.1 > b.mint then b.mint else ft.1,
       if ft.2 < b.maxt then b.maxt else ft.2))
    c.head.BoundsH

/-- Append a sequence of entries, stopping at the first error (a chunk
"built by a sequence of successful Appends" is one for which this returns
`ok`). -/
def appendAll (ct : CodecTable) (c : MemChunk) (es : List LEntry) :
    Except ChunkErr MemChunk :=
  es.foldlM
    (fun acc e =>
      match MemChunk.Append ct acc e with
      | (c', _, none) => Except.ok c'
      | (_, _, some er) => Except.error er)
    c

def buildChunk (ct : CodecTable) (enc headF blockSize targetSize : Nat)
    (es : List LEntry) : Except ChunkErr MemChunk :=
  appendAll ct (NewMemChunk enc headF blockSize targetSize) es

theorem AppendH_ok_nonempty (h : HeadBlock) (sy : Symbolizer) (ts : Int)
    (line : Bytes) (ls : Labels) (h' : HeadBlock) (sy' : Symbolizer)
    (hap : h.AppendH sy ts line ls = .ok (h', sy')) : h'.IsEmpty = false := by
  cases h with
  | ordered hb =>
    simp only [HeadBlock.AppendH, headBlock.Append] at hap
    split at hap
    · simp [Except.map] at hap
    · simp only [Except.map, Except.ok.injEq, Prod.mk.injEq] at hap
      rw [← hap.1]
      simp [HeadBlock.IsEmpty, headBlock.IsEmpty]
  | unordered hb =>
    simp only [HeadBlock.AppendH, Except.ok.injEq, Prod.mk.injEq] at hap
    rw [← hap.1]
    simp [HeadBlock.IsEmpty, unorderedHeadBlock.Append]

/-- C5: whenever an `Append` brings the head's uncompressed size to or
beyond the configured block size, the chunk serialises the head into a new
sealed block recorded with the head's current entry count, bounds and
uncompressed size, appends it to the block list, accounts its compressed
length, and resets the head; and cutting with an empty head changes
nothing. -/
theorem append_cut_protocol (ct : CodecTable) (c c2 : MemChunk) (e : LEntry)
    (h' : HeadBlock) (sy' : Symbolizer)
    (hpre : ¬ (c.headFmt < UnorderedHeadBlockFmt ∧ c.head.IsEmpty = true ∧
      c.blocks ≠ [] ∧ lastBlockMaxt c.blocks > e.t))
    (hap : c.head.AppendH c.symbolizer e.t e.s
      (if c.format < chunkFormatV4 then [] else e.nonIndexedLabels) = .ok (h', sy'))
    (hsz : h'.UncompressedSizeH ≥ c.blockSize)
    (hemp : c2.head.IsEmpty = true) :
    (c.Append ct e).1 = { c with
        head := h'.ResetH
        symbolizer := sy'
        blocks := c.blocks ++
          [{ b := h'.SerialiseH ct c.encoding c.format sy'
             numEntries := h'.EntriesN
             mint := (h'.BoundsH).1
             maxt := (h'.BoundsH).2
             offset := 0
             uncompressedSize := h'.UncompressedSizeH }]
        cutBlockSize := c.cutBlockSize +
          (h'.SerialiseH ct c.encoding c.format sy').length } ∧
      (c.Append ct e).2.2 = none ∧
      c2.cut ct = c2 := by
  have hap' : c.head.AppendH c.symbolizer e.t
      (if c.format < chunkFormatV4 then ({ e with nonIndexedLabels := [] } : LEntry) else e).s
      (if c.format < chunkFormatV4 then ({ e with nonIndexedLabels := [] } : LEntry) else e).nonIndexedLabels
      = .ok (h', sy') := by
    by_cases hf : c.format < chunkFormatV4
    · simpa [hf] using hap
    · simpa [hf] using hap
  have hne := AppendH_ok_nonempty c.head c.symbolizer e.t _ _ h' sy' hap'
  refine ⟨?_, ?_, ?_⟩
  · unfold MemChunk.Append MemChunk.cut
    rw [if_neg hpre]
    simp [hap', hne, hsz]
  · unfold MemChunk.Append MemChunk.cut
    rw [if_neg hpre]
    simp [hap', hne, hsz]
  · unfold MemChunk.cut
    rw [if_pos hemp]

/-- C6: `SpaceFor` admits an entry iff, when the compressed-size target is
positive, the sum of cut-block compressed bytes, head uncompressed bytes,
the entry's line length and (v4+) the symbol table's uncompressed size plus
the encoded size of the entry's structured labels is strictly below the
target; and, when the target is 0, iff the chunk holds fewer than 10 sealed
blocks. -/
theorem spaceFor_admission (c : MemChunk) (e : LEntry) :
    (0 < c.targetSize →
      (c.SpaceFor e = true ↔
        c.cutBlockSize + c.head.UncompressedSizeH + e.s.length +
          (if chunkFormatV4 ≤ c.format then
            c.symbolizer.UncompressedSize + metaLabelsLen e.nonIndexedLabels
          else 0) < c.targetSize)) ∧
    (c.targetSize = 0 → (c.SpaceFor e = true ↔ c.blocks.length < blocksPerChunk)) := by
  constructor
  · intro h
    unfold MemChunk.SpaceFor
    rw [if_pos h]
    simp only [decide_eq_true_eq, ge_iff_le]
    by_cases hf : chunkFormatV4 ≤ c.format
    · simp only [if_pos hf]
      omega
    · simp only [if_neg hf]
      omega
  · intro h
    unfold MemChunk.SpaceFor
    rw [if_neg (by omega)]
    simp only [decide_eq_true_eq]

/-- C10: `Append` forwards to the head after setting the caller's entry's
`NonIndexedLabels` field to nil when the chunk format is below v4 — the
returned entry (the caller's struct as left by the call, whose labels field
is exactly what the head receives) has no structured labels — while for
v4+ formats the entry passes through intact. -/
theorem append_nonindexed_mutation (ct : CodecTable) (c : MemChunk) (e : LEntry)
    (hpre : ¬ (c.headFmt < UnorderedHeadBlockFmt ∧ c.head.IsEmpty = true ∧
      c.blocks ≠ [] ∧ lastBlockMaxt c.blocks > e.t)) :
    (c.format < chunkFormatV4 →
      (c.Append ct e).2.1 = { e with nonIndexedLabels := [] }) ∧
    (chunkFormatV4 ≤ c.format → (c.Append ct e).2.1 = e) := by
  constructor
  · intro hf
    unfold MemChunk.Append
    rw [if_neg hpre]
    simp only [if_pos hf]
    cases hM : HeadBlock.AppendH c.head c.symbolizer e.t
        ({ e with nonIndexedLabels := [] } : LEntry).s
        ({ e with nonIndexedLabels := [] } : LEntry).nonIndexedLabels with
    | error er => simp
    | ok hs =>
      simp only
      split <;> simp
  · intro hf
    unfold MemChunk.Append
    rw [if_neg hpre]
    have hf' : ¬ c.format < chunkFormatV4 := by omega
    simp only [if_neg hf']
    cases hM : HeadBlock.AppendH c.head c.symbolizer e.t e.s e.nonIndexedLabels with
    | error er => simp
    | ok hs =>
      simp only
      split <;> simp

/-! Witness material: the identity codec table and small concrete inputs. -/

def wEntryA : LEntry := ⟨5, [104, 105], []⟩

def wEntryL : LEntry := ⟨7, [104], [([97], [98])]⟩

def wChunkSmall : MemChunk := NewMemChunk EncNone OrderedHeadBlockFmt 2 0

def wChunkTarget : MemChunk := NewMemChunk EncNone OrderedHeadBlockFmt 16 100

def wHeadCut : HeadBlock := .ordered { entries := [wEntryA], size := 2, mint := 5, maxt := 5 }

theorem append_cut_protocol_witness :
    (wChunkSmall.Append idTable wEntryA).1 = { wChunkSmall with
        head := wHeadCut.ResetH
        symbolizer := newSymbolizer
        blocks := wChunkSmall.blocks ++
          [{ b := wHeadCut.SerialiseH idTable wChunkSmall.encoding wChunkSmall.format newSymbolizer
             numEntries := wHeadCut.EntriesN
             mint := (wHeadCut.BoundsH).1
             maxt := (wHeadCut.BoundsH).2
             offset := 0
             uncompressedSize := wHeadCut.UncompressedSizeH }]
        cutBlockSize := wChunkSmall.cutBlockSize +
          (wHeadCut.SerialiseH idTable wChunkSmall.encoding wChunkSmall.format newSymbolizer).length } ∧
      (wChunkSmall.Append idTable wEntryA).2.2 = none ∧
      wChunkSmall.cut idTable = wChunkSmall :=
  append_cut_protocol idTable wChunkSmall wChunkSmall wEntryA wHeadCut newSymbolizer
    (by decide) (by rfl) (by decide) (by decide)

theorem spaceFor_admission_witness :
    (0 < wChunkTarget.targetSize →
      (wChunkTarget.SpaceFor wEntryA = true ↔
        wChunkTarget.cutBlockSize + wChunkTarget.head.UncompressedSizeH + wEntryA.s.length +
          (if chunkFormatV4 ≤ wChunkTarget.format then
            wChunkTarget.symbolizer.UncompressedSize + metaLabelsLen wEntryA.nonIndexedLabels
          else 0) < wChunkTarget.targetSize)) ∧
    (wChunkTarget.targetSize = 0 →
      (wChunkTarget.SpaceFor wEntryA = true ↔ wChunkTarget.blocks.length < blocksPerChunk)) :=
  spaceFor_admission wChunkTarget wEntryA

theorem append_nonindexed_mutation_witness :
    (wChunkTarget.Append idTable wEntryL).2.1 = { wEntryL with nonIndexedLabels := [] } ∧
    ((newMemChunkWithFormat chunkFormatV4 EncNone UnorderedWithNonIndexedLabelsHeadBlockFmt 16 100).Append
        idTable wEntryL).2.1 = wEntryL := by
  constructor
  · exact (append_nonindexed_mutation idTable wChunkTarget wEntryL (by decide)).1 (by decide)
  · exact (append_nonindexed_mutation idTable
      (newMemChunkWithFormat chunkFormatV4 EncNone UnorderedWithNonIndexedLabelsHeadBlockFmt 16 100)
      wEntryL (by decide)).2 (by decide)

/-! ## Invariants of chunks built by successful ordered appends -/

/-- The entries decoded from a sealed block (payload decompressed through
the chunk's codec, then decoded as an entry stream). -/
def blkEnts (ct : CodecTable) (fmt : Nat) (sy : Symbolizer) (enc : Nat)
    (blk : Block) : List LEntry :=
  (decodeEntriesP fmt sy ((ct enc).decompress blk.b)).1

def blkOKP (ct : CodecTable) (fmt : Nat) (sy : Symbolizer) (enc : Nat)
    (blk : Block) : Prop :=
  (decodeEntriesP fmt sy ((ct enc).decompress blk.b)).2 = false

/-- All entries held by the chunk, blocks first then the head, in storage
order. -/
def chunkEntries (ct : CodecTable) (c : MemChunk) : List LEntry :=
  (c.blocks.map (blkEnts ct c.format c.symbolizer c.encoding)).flatten ++
    c.head.entriesList

theorem blkEnts_mk (ct : CodecTable) (fmt : Nat) (sy : Symbolizer) (enc : Nat)
    (bb : Bytes) (n : Nat) (mi ma : Int) (off us : Nat) :
    blkEnts ct fmt sy enc ⟨bb, n, mi, ma, off, us⟩ =
      (decodeEntriesP fmt sy ((ct enc).decompress bb)).1 := rfl

theorem blkOKP_mk (ct : CodecTable) (fmt : Nat) (sy : Symbolizer) (enc : Nat)
    (bb : Bytes) (n : Nat) (mi ma : Int) (off us : Nat) :
    blkOKP ct fmt sy enc ⟨bb, n, mi, ma, off, us⟩ =
      ((decodeEntriesP fmt sy ((ct enc).decompress bb)).2 = false) := rfl

theorem chunkEntries_setHead (ct : CodecTable) (c : MemChunk) (h : HeadBlock) :
    chunkEntries ct { c with head := h } =
      (c.blocks.map (blkEnts ct c.format c.symbolizer c.encoding)).flatten ++
        h.entriesList := rfl

theorem chunkEntries_setCut (ct : CodecTable) (c : MemChunk) (h : HeadBlock)
    (nb : Block) (k : Nat) :
    chunkEntries ct
      { c with
        head := h
        blocks := c.blocks ++ [nb]
        cutBlockSize := k } =
      ((c.blocks ++ [nb]).map (blkEnts ct c.format c.symbolizer c.encoding)).flatten ++
        h.entriesList := rfl

def tle (a b : LEntry) : Prop := a.t ≤ b.t

def maxTs (es : List LEntry) : Int := es.foldl (fun a x => max a x.t) 0

theorem foldl_max_init_le (es : List LEntry) :
    ∀ a : Int, a ≤ es.foldl (fun b x => max b x.t) a := by
  induction es with
  | nil => intro a; simp
  | cons e tl ih =>
    intro a
    simp only [List.foldl_cons]
    exact le_trans (le_max_left a e.t) (ih (max a e.t))

theorem maxTs_ge (es : List LEntry) :
    ∀ x ∈ es, x.t ≤ maxTs es := by
  unfold maxTs
  generalize (0 : Int) = a
  induction es generalizing a with
  | nil => intro x hx; simp at hx
  | cons e tl ih =>
    intro x hx
    simp only [List.mem_cons] at hx
    rcases hx with h | h
    · subst h
      simp only [List.foldl_cons]
      exact le_trans (le_max_right a x.t) (foldl_max_init_le tl (max a x.t))
    · exact ih (max a e.t) x h

theorem maxTs_append_singleton (es : List LEntry) (e : LEntry) :
    maxTs (es ++ [e]) = max (maxTs es) e.t := by
  unfold maxTs
  rw [List.foldl_append]
  simp

/-- Invariant of a chunk built from a fresh ordered-head chunk by a
sequence of successful appends: v3 format, ordered head, every sealed
block decodes cleanly to a non-empty, well-formed entry list whose count
and time bounds the block metadata records, block bounds chain in order,
the head's bounds cover and attain its entries, the maximum timestamp held
is the head's `maxt` (or the last block's when the head is empty), and the
full entry sequence is sorted by timestamp. -/
structure OrdInv (ct : CodecTable) (c : MemChunk) : Prop where
  fmt3 : c.format = DefaultChunkFormat
  hfOrd : c.headFmt = OrderedHeadBlockFmt
  headOrd : ∃ hb : headBlock, c.head = .ordered hb
  blkOks : ∀ blk ∈ c.blocks, blkOKP ct c.format c.symbolizer c.encoding blk
  blkNe : ∀ blk ∈ c.blocks, blkEnts ct c.format c.symbolizer c.encoding blk ≠ []
  blkWf : ∀ blk ∈ c.blocks, ∀ x ∈ blkEnts ct c.format c.symbolizer c.encoding blk, wfEntry x
  blkNum : ∀ blk ∈ c.blocks, blk.numEntries = (blkEnts ct c.format c.symbolizer c.encoding blk).length
  blkContain : ∀ blk ∈ c.blocks, ∀ x ∈ blkEnts ct c.format c.symbolizer c.encoding blk,
    blk.mint ≤ x.t ∧ x.t ≤ blk.maxt
  blkMintMem : ∀ blk ∈ c.blocks, ∃ x ∈ blkEnts ct c.format c.symbolizer c.encoding blk, x.t = blk.mint
  blkMaxtMem : ∀ blk ∈ c.blocks, ∃ x ∈ blkEnts ct c.format c.symbolizer c.encoding blk, x.t = blk.maxt
  blocksPairwise : List.Pairwise (fun b1 b2 => b1.maxt ≤ b2.mint) c.blocks
  headWf : ∀ x ∈ c.head.entriesList, wfEntry x
  headContain : ∀ x ∈ c.head.entriesList,
    (c.head.BoundsH).1 ≤ x.t ∧ x.t ≤ (c.head.BoundsH).2
  headMintMem : c.head.entriesList ≠ [] →
    ∃ x ∈ c.head.entriesList, x.t = (c.head.BoundsH).1
  headMaxtMem : c.head.entriesList ≠ [] →
    ∃ x ∈ c.head.entriesList, x.t = (c.head.BoundsH).2
  headEmptyBounds : c.head.entriesList = [] → c.head.BoundsH = (0, 0)
  headMaxt : c.head.entriesList ≠ [] →
    (c.head.BoundsH).2 = maxTs (chunkEntries ct c)
  headEmptyB : c.head.entriesList = [] → c.blocks ≠ [] →
    lastBlockMaxt c.blocks = maxTs (chunkEntries ct c)
  lastLe : c.blocks ≠ [] → c.head.entriesList ≠ [] →
    lastBlockMaxt c.blocks ≤ (c.head.BoundsH).1
  sorted : List.Pairwise tle (chunkEntries ct c)

theorem OrdInv_new (ct : CodecTable) (enc blockSize targetSize : Nat) :
    OrdInv ct (NewMemChunk enc OrderedHeadBlockFmt blockSize targetSize) := by
  refine ⟨rfl, rfl, ⟨{}, rfl⟩, ?_, ?_, ?_, ?_, ?_, ?_, ?_, ?_, ?_, ?_, ?_, ?_, ?_, ?_, ?_, ?_, ?_⟩
  all_goals simp [NewMemChunk, newMemChunkWithFormat, headBlockFromFmt,
    OrderedHeadBlockFmt, UnorderedHeadBlockFmt, chunkEntries, HeadBlock.entriesList,
    HeadBlock.BoundsH]

/-- The ordered head after a successful append of `e` (the record built by
`headBlock.Append`). -/
def hbAfter (hb : headBlock) (e : LEntry) : headBlock :=
  { entries := hb.entries ++ [⟨e.t, e.s, []⟩]
    mint := if hb.mint = 0 ∨ hb.mint > e.t then e.t else hb.mint
    maxt := e.t
    size := hb.size + e.s.length }

@[simp] theorem HeadBlock.IsEmpty_ordered (hb : headBlock) :
    (HeadBlock.ordered hb).IsEmpty = hb.entries.isEmpty := rfl

@[simp] theorem HeadBlock.EntriesN_ordered (hb : headBlock) :
    (HeadBlock.ordered hb).EntriesN = hb.entries.length := rfl

@[simp] theorem HeadBlock.entriesList_ordered (hb : headBlock) :
    (HeadBlock.ordered hb).entriesList = hb.entries := rfl

@[simp] theorem HeadBlock.UncompressedSizeH_ordered (hb : headBlock) :
    (HeadBlock.ordered hb).UncompressedSizeH = hb.size := rfl

@[simp] theorem HeadBlock.BoundsH_ordered (hb : headBlock) :
    (HeadBlock.ordered hb).BoundsH = (hb.mint, hb.maxt) := rfl

@[simp] theorem HeadBlock.ResetH_ordered (hb : headBlock) :
    (HeadBlock.ordered hb).ResetH = .ordered {} := rfl

@[simp] theorem HeadBlock.SerialiseH_ordered (hb : headBlock) (ct : CodecTable)
    (enc fmtC : Nat) (sy : Symbolizer) :
    (HeadBlock.ordered hb).SerialiseH ct enc fmtC sy =
      (ct enc).compress (encEntries hb.entries) := rfl

theorem headBlock.Append_ok (hb : headBlock) (e : LEntry)
    (hord : ¬ (¬ hb.entries.isEmpty = true ∧ hb.maxt > e.t)) :
    hb.Append e.t e.s = .ok (hbAfter hb e) := by
  unfold headBlock.Append hbAfter
  rw [if_neg hord]

theorem Append_preserves_cfg (ct : CodecTable) (c : MemChunk) (e : LEntry) :
    (c.Append ct e).1.format = c.format ∧ (c.Append ct e).1.encoding = c.encoding ∧
    (c.Append ct e).1.headFmt = c.headFmt ∧ (c.Append ct e).1.blockSize = c.blockSize ∧
    (c.Append ct e).1.targetSize = c.targetSize ∧
    (c.Append ct e).1.compressedSize = c.compressedSize := by
  unfold MemChunk.Append
  split
  · exact ⟨rfl, rfl, rfl, rfl, rfl, rfl⟩
  · simp only
    split
    · exact ⟨rfl, rfl, rfl, rfl, rfl, rfl⟩
    · split
      · unfold MemChunk.cut
        split
        · exact ⟨rfl, rfl, rfl, rfl, rfl, rfl⟩
        · exact ⟨rfl, rfl, rfl, rfl, rfl, rfl⟩
      · exact ⟨rfl, rfl, rfl, rfl, rfl, rfl⟩

/-- Shape of a successful `Append` on a chunk with an ordered head and a
pre-v4 format: the out-of-order pre-check did not fire, the head accepted
the timestamp, and the result either keeps the grown head (below the block
size) or cuts it into a new sealed block. -/
theorem Append_ok_shape (ct : CodecTable) (c : MemChunk) (e : LEntry)
    (hb : headBlock) (hhead : c.head = .ordered hb)
    (hfmt : c.format < chunkFormatV4)
    (hok : (c.Append ct e).2.2 = none) :
    ¬ (c.headFmt < UnorderedHeadBlockFmt ∧ c.head.IsEmpty = true ∧
        c.blocks ≠ [] ∧ lastBlockMaxt c.blocks > e.t) ∧
    ¬ (¬ hb.entries.isEmpty = true ∧ hb.maxt > e.t) ∧
    ((hb.size + e.s.length < c.blockSize ∧
        (c.Append ct e).1 = { c with head := .ordered (hbAfter hb e) }) ∨
     (c.blockSize ≤ hb.size + e.s.length ∧
        (c.Append ct e).1 = { c with
          head := .ordered {}
          blocks := c.blocks ++
            [{ b := (ct c.encoding).compress (encEntries (hbAfter hb e).entries)
               numEntries := (hbAfter hb e).entries.length
               mint := (hbAfter hb e).mint
               maxt := (hbAfter hb e).maxt
               offset := 0
               uncompressedSize := (hbAfter hb e).size }]
          cutBlockSize := c.cutBlockSize +
            ((ct c.encoding).compress (encEntries (hbAfter hb e).entries)).length })) := by
  by_cases hpre : c.headFmt < UnorderedHeadBlockFmt ∧ c.head.IsEmpty = true ∧
      c.blocks ≠ [] ∧ lastBlockMaxt c.blocks > e.t
  · exfalso
    unfold MemChunk.Append at hok
    rw [if_pos hpre] at hok
    simp at hok
  refine ⟨hpre, ?_, ?_⟩
  · intro hord
    unfold MemChunk.Append at hok
    rw [if_neg hpre] at hok
    simp only [if_pos hfmt, hhead, HeadBlock.AppendH, headBlock.Append] at hok
    rw [if_pos hord] at hok
    simp [Except.map] at hok
  · by_cases hord : ¬ hb.entries.isEmpty = true ∧ hb.maxt > e.t
    · exfalso
      unfold MemChunk.Append at hok
      rw [if_neg hpre] at hok
      simp only [if_pos hfmt, hhead, HeadBlock.AppendH, headBlock.Append] at hok
      rw [if_pos hord] at hok
      simp [Except.map] at hok
    · have hstep : (c.Append ct e) =
          (if (hbAfter hb e).size ≥ c.blockSize then
            ({ c with head := .ordered (hbAfter hb e) } : MemChunk).cut ct
          else { c with head := .ordered (hbAfter hb e) },
            ({ e with nonIndexedLabels := [] } : LEntry), none) := by
        unfold MemChunk.Append
        rw [if_neg hpre]
        simp only [if_pos hfmt, hhead, HeadBlock.AppendH]
        rw [headBlock.Append_ok hb { e with nonIndexedLabels := [] } (by simpa using hord)]
        simp only [Except.map, HeadBlock.UncompressedSizeH_ordered]
        have hsame : hbAfter hb { e with nonIndexedLabels := [] } = hbAfter hb e := rfl
        rw [hsame]
        split <;> rfl
      by_cases hsz : (hbAfter hb e).size ≥ c.blockSize
      · right
        have hsz' : c.blockSize ≤ hb.size + e.s.length := hsz
        refine ⟨hsz', ?_⟩
        rw [hstep]
        simp only [if_pos hsz]
        unfold MemChunk.cut
        have hne : (({ c with head := .ordered (hbAfter hb e) } : MemChunk)).head.IsEmpty = false := by
          simp [hbAfter]
        rw [hne]
        simp only [Bool.false_eq_true, if_false,
          HeadBlock.SerialiseH_ordered, HeadBlock.EntriesN_ordered,
          HeadBlock.BoundsH_ordered, HeadBlock.UncompressedSizeH_ordered,
          HeadBlock.ResetH_ordered]
      · left
        have hsz' : hb.size + e.s.length < c.blockSize := by
          unfold hbAfter at hsz
          simp only at hsz
          omega
        refine ⟨hsz', ?_⟩
        rw [hstep]
        simp only [if_neg hsz]

theorem foldl_max_le (es : List LEntry) :
    ∀ (a m : Int), a ≤ m → (∀ x ∈ es, x.t ≤ m) →
    es.foldl (fun b x => max b x.t) a ≤ m := by
  induction es with
  | nil => intro a m ha _; simpa using ha
  | cons e tl ih =>
    intro a m ha h
    simp only [List.foldl_cons]
    exact ih (max a e.t) m (max_le ha (h e (by simp))) (fun x hx => h x (by simp [hx]))

theorem maxTs_le (es : List LEntry) (m : Int) (hm : 0 ≤ m)
    (h : ∀ x ∈ es, x.t ≤ m) : maxTs es ≤ m :=
  foldl_max_le es 0 m hm h

theorem lastBlockMaxt_append (bs : List Block) (b : Block) :
    lastBlockMaxt (bs ++ [b]) = b.maxt := by
  unfold lastBlockMaxt
  rw [List.getLast?_concat]
  rfl

/-- A successful `Append` preserves the build invariant and appends the
entry at the end of the chunk's entry sequence. -/
theorem Append_preserves_inv (ct : CodecTable) (c : MemChunk) (e : LEntry)
    (hc : ∀ bs, (ct c.encoding).decompress ((ct c.encoding).compress bs) = bs)
    (hinv : OrdInv ct c) (hwf : wfEntry e)
    (hok : (c.Append ct e).2.2 = none) :
    OrdInv ct (c.Append ct e).1 ∧
    chunkEntries ct (c.Append ct e).1 = chunkEntries ct c ++ [e] := by
  obtain ⟨hb, hhead⟩ := hinv.headOrd
  have hfmt : c.format < chunkFormatV4 := by
    rw [hinv.fmt3]
    norm_num [DefaultChunkFormat, chunkFormatV3, chunkFormatV4]
  obtain ⟨hpre, hord, hcases⟩ := Append_ok_shape ct c e hb hhead hfmt hok
  obtain ⟨hwt1, hwt2, hws, hwl⟩ := hwf
  have estore : (⟨e.t, e.s, []⟩ : LEntry) = e := by
    cases e
    simp only at hwl
    simp [hwl]
  have hel : c.head.entriesList = hb.entries := by rw [hhead]; rfl
  have hbnd : c.head.BoundsH = (hb.mint, hb.maxt) := by rw [hhead]; rfl
  have hmaxle : ¬ hb.entries = [] → hb.maxt ≤ e.t := by
    intro hhe
    by_contra hgt
    exact hord ⟨by simp [List.isEmpty_iff, hhe], by omega⟩
  have hmax_all : ∀ x ∈ chunkEntries ct c, x.t ≤ e.t := by
    intro x hx
    by_cases hhe : hb.entries = []
    · by_cases hbl : c.blocks = []
      · exfalso
        have hempty : chunkEntries ct c = [] := by
          unfold chunkEntries
          rw [hel, hhe, hbl]
          simp
        rw [hempty] at hx
        simp at hx
      · have hlbm : lastBlockMaxt c.blocks = maxTs (chunkEntries ct c) :=
          hinv.headEmptyB (by rw [hel]; exact hhe) hbl
        have hige : ¬ lastBlockMaxt c.blocks > e.t := by
          intro hgt
          refine hpre ⟨?_, ?_, hbl, hgt⟩
          · rw [hinv.hfOrd]
            norm_num [OrderedHeadBlockFmt, UnorderedHeadBlockFmt]
          · rw [hhead]
            simp [hhe]
        have hxle := maxTs_ge (chunkEntries ct c) x hx
        rw [← hlbm] at hxle
        omega
    · have hmx : hb.maxt = maxTs (chunkEntries ct c) := by
        have hh := hinv.headMaxt (by rw [hel]; exact hhe)
        rw [hbnd] at hh
        exact hh
      have hxle := maxTs_ge (chunkEntries ct c) x hx
      have := hmaxle hhe
      omega
  have hents' : (hbAfter hb e).entries = hb.entries ++ [e] := by
    unfold hbAfter
    rw [estore]
  have hmaxt' : (hbAfter hb e).maxt = e.t := rfl
  have hmint_cases : (hb.entries = [] ∧ (hbAfter hb e).mint = e.t) ∨
      (hb.entries ≠ [] ∧ (hbAfter hb e).mint = hb.mint ∧ 1 ≤ hb.mint ∧
        hb.mint ≤ hb.maxt ∧ hb.maxt ≤ e.t) := by
    by_cases hhe : hb.entries = []
    · left
      refine ⟨hhe, ?_⟩
      have hzero := hinv.headEmptyBounds (by rw [hel]; exact hhe)
      rw [hbnd] at hzero
      unfold hbAfter
      simp only [Prod.mk.injEq] at hzero
      simp [hzero.1]
    · right
      obtain ⟨x0, hx0mem, hx0t⟩ := hinv.headMintMem (by rw [hel]; exact hhe)
      rw [hbnd] at hx0t
      simp only at hx0t
      have hx0wf := hinv.headWf x0 hx0mem
      have hx0c := hinv.headContain x0 hx0mem
      rw [hbnd] at hx0c
      simp only at hx0c
      obtain ⟨hx01, _, _, _⟩ := hx0wf
      have hm1 : 1 ≤ hb.mint := by omega
      have hmle : hb.mint ≤ hb.maxt := by omega
      have hle := hmaxle hhe
      refine ⟨hhe, ?_, hm1, hmle, hle⟩
      unfold hbAfter
      simp only
      rw [if_neg (by omega)]
  have hwf' : ∀ x ∈ (hbAfter hb e).entries, wfEntry x := by
    rw [hents']
    intro x hx
    rcases List.mem_append.mp hx with h | h
    · exact hinv.headWf x (by rw [hel]; exact h)
    · simp only [List.mem_singleton] at h
      subst h
      exact ⟨hwt1, hwt2, hws, hwl⟩
  have hcontain' : ∀ x ∈ (hbAfter hb e).entries,
      (hbAfter hb e).mint ≤ x.t ∧ x.t ≤ (hbAfter hb e).maxt := by
    rw [hents', hmaxt']
    intro x hx
    rcases List.mem_append.mp hx with h | h
    · rcases hmint_cases with ⟨hhe, _⟩ | ⟨hhe, hm, _, _, hle⟩
      · rw [hhe] at h; simp at h
      · rw [hm]
        have hcx := hinv.headContain x (by rw [hel]; exact h)
        rw [hbnd] at hcx
        simp only at hcx
        have := hmaxle hhe
        exact ⟨hcx.1, by omega⟩
    · simp only [List.mem_singleton] at h
      subst h
      rcases hmint_cases with ⟨_, hm⟩ | ⟨_, hm, _, hmm, hle⟩
      · rw [hm]; omega
      · rw [hm]; omega
  have hminmem' : ∃ x ∈ (hbAfter hb e).entries, x.t = (hbAfter hb e).mint := by
    rw [hents']
    rcases hmint_cases with ⟨hhe, hm⟩ | ⟨hhe, hm, _, _, _⟩
    · exact ⟨e, by simp, by rw [hm]⟩
    · obtain ⟨x0, hx0mem, hx0t⟩ := hinv.headMintMem (by rw [hel]; exact hhe)
      rw [hbnd] at hx0t
      simp only at hx0t
      exact ⟨x0, by rw [hel] at hx0mem; simp [hx0mem], by rw [hm]; exact hx0t⟩
  have hmaxmem' : ∃ x ∈ (hbAfter hb e).entries, x.t = (hbAfter hb e).maxt :=
    ⟨e, by rw [hents']; simp, by rw [hmaxt']⟩
  have hLBMle : c.blocks ≠ [] → lastBlockMaxt c.blocks ≤ (hbAfter hb e).mint := by
    intro hbl
    rcases hmint_cases with ⟨hhe, hm⟩ | ⟨hhe, hm, _, _, _⟩
    · rw [hm]
      by_contra hgt
      refine hpre ⟨?_, ?_, hbl, by omega⟩
      · rw [hinv.hfOrd]
        norm_num [OrderedHeadBlockFmt, UnorderedHeadBlockFmt]
      · rw [hhead]
        simp [hhe]
    · rw [hm]
      have hll := hinv.lastLe hbl (by rw [hel]; exact hhe)
      rw [hbnd] at hll
      exact hll
  have hsortedNew : List.Pairwise tle (chunkEntries ct c ++ [e]) := by
    rw [List.pairwise_append]
    refine ⟨hinv.sorted, by simp, ?_⟩
    intro a ha b hbm
    simp only [List.mem_singleton] at hbm
    subst hbm
    exact hmax_all a ha
  have hmaxTsNew : maxTs (chunkEntries ct c ++ [e]) = e.t := by
    rw [maxTs_append_singleton]
    exact max_eq_right (maxTs_le _ _ (by omega) hmax_all)
  rcases hcases with ⟨hszlt, heq⟩ | ⟨hszge, heq⟩
  · -- no cut: the head grows in place
    rw [heq]
    have hentsEq : chunkEntries ct { c with head := .ordered (hbAfter hb e) } =
        chunkEntries ct c ++ [e] := by
      rw [chunkEntries_setHead]
      simp only [HeadBlock.entriesList_ordered, hents']
      unfold chunkEntries
      rw [hel, List.append_assoc]
    refine ⟨?_, hentsEq⟩
    refine ⟨hinv.fmt3, hinv.hfOrd, ⟨hbAfter hb e, rfl⟩, hinv.blkOks, hinv.blkNe,
      hinv.blkWf, hinv.blkNum, hinv.blkContain, hinv.blkMintMem, hinv.blkMaxtMem,
      hinv.blocksPairwise, ?_, ?_, ?_, ?_, ?_, ?_, ?_, ?_, ?_⟩
    · simpa using hwf'
    · simpa using hcontain'
    · intro _
      simpa using hminmem'
    · intro _
      simpa using hmaxmem'
    · intro hemp
      exfalso
      rw [HeadBlock.entriesList_ordered, hents'] at hemp
      simp at hemp
    · intro _
      rw [hentsEq, hmaxTsNew]
      simpa using hmaxt'
    · intro hemp
      exfalso
      rw [HeadBlock.entriesList_ordered, hents'] at hemp
      simp at hemp
    · intro hbl _
      simpa using hLBMle hbl
    · rw [hentsEq]
      exact hsortedNew
  · -- cut: the grown head is sealed into a new block
    rw [heq]
    have hdecomp : (ct c.encoding).decompress
        ((ct c.encoding).compress (encEntries (hbAfter hb e).entries)) =
        encEntries (hbAfter hb e).entries := hc _
    have hrt := decodeEntriesP_encEntries c.format
      (by simpa [chunkFormatV4] using hfmt) c.symbolizer
      (hbAfter hb e).entries hwf'
    have hnbEnts : blkEnts ct c.format c.symbolizer c.encoding
        { b := (ct c.encoding).compress (encEntries (hbAfter hb e).entries)
          numEntries := (hbAfter hb e).entries.length
          mint := (hbAfter hb e).mint
          maxt := (hbAfter hb e).maxt
          offset := 0
          uncompressedSize := (hbAfter hb e).size } = (hbAfter hb e).entries := by
      rw [blkEnts_mk, hdecomp, hrt]
    have hnbOK : blkOKP ct c.format c.symbolizer c.encoding
        { b := (ct c.encoding).compress (encEntries (hbAfter hb e).entries)
          numEntries := (hbAfter hb e).entries.length
          mint := (hbAfter hb e).mint
          maxt := (hbAfter hb e).maxt
          offset := 0
          uncompressedSize := (hbAfter hb e).size } := by
      rw [blkOKP_mk, hdecomp, hrt]
    have hentsEq : chunkEntries ct { c with
        head := .ordered {}
        blocks := c.blocks ++
          [{ b := (ct c.encoding).compress (encEntries (hbAfter hb e).entries)
             numEntries := (hbAfter hb e).entries.length
             mint := (hbAfter hb e).mint
             maxt := (hbAfter hb e).maxt
             offset := 0
             uncompressedSize := (hbAfter hb e).size }]
        cutBlockSize := c.cutBlockSize +
          ((ct c.encoding).compress (encEntries (hbAfter hb e).entries)).length } =
        chunkEntries ct c ++ [e] := by
      rw [chunkEntries_setCut, List.map_append, List.flatten_append]
      simp only [List.map_cons, List.map_nil, List.flatten_cons, List.flatten_nil,
        List.append_nil, HeadBlock.entriesList_ordered]
      rw [hnbEnts]
      unfold chunkEntries
      rw [hel, hents', List.append_assoc]
    refine ⟨?_, hentsEq⟩
    refine ⟨hinv.fmt3, hinv.hfOrd, ⟨{}, rfl⟩, ?_, ?_, ?_, ?_, ?_, ?_, ?_, ?_,
      ?_, ?_, ?_, ?_, ?_, ?_, ?_, ?_, ?_⟩
    · intro blk hblk
      rcases List.mem_append.mp hblk with h | h
      · exact hinv.blkOks blk h
      · simp only [List.mem_singleton] at h
        subst h
        exact hnbOK
    · intro blk hblk
      rcases List.mem_append.mp hblk with h | h
      · exact hinv.blkNe blk h
      · simp only [List.mem_singleton] at h
        subst h
        show blkEnts ct c.format c.symbolizer c.encoding _ ≠ []
        rw [hnbEnts, hents']
        simp
    · intro blk hblk
      rcases List.mem_append.mp hblk with h | h
      · exact hinv.blkWf blk h
      · simp only [List.mem_singleton] at h
        subst h
        show ∀ x ∈ blkEnts ct c.format c.symbolizer c.encoding _, wfEntry x
        rw [hnbEnts]
        exact hwf'
    · intro blk hblk
      rcases List.mem_append.mp hblk with h | h
      · exact hinv.blkNum blk h
      · simp only [List.mem_singleton] at h
        subst h
        show _ = (blkEnts ct c.format c.symbolizer c.encoding _).length
        rw [hnbEnts]
    · intro blk hblk
      rcases List.mem_append.mp hblk with h | h
      · exact hinv.blkContain blk h
      · simp only [List.mem_singleton] at h
        subst h
        intro x hx
        rw [show blkEnts ct _ _ _ _ = (hbAfter hb e).entries from hnbEnts] at hx
        exact hcontain' x hx
    · intro blk hblk
      rcases List.mem_append.mp hblk with h | h
      · exact hinv.blkMintMem blk h
      · simp only [List.mem_singleton] at h
        subst h
        rw [show blkEnts ct _ _ _ _ = (hbAfter hb e).entries from hnbEnts]
        exact hminmem'
    · intro blk hblk
      rcases List.mem_append.mp hblk with h | h
      · exact hinv.blkMaxtMem blk h
      · simp only [List.mem_singleton] at h
        subst h
        rw [show blkEnts ct _ _ _ _ = (hbAfter hb e).entries from hnbEnts]
        exact hmaxmem'
    · rw [List.pairwise_append]
      refine ⟨hinv.blocksPairwise, by simp, ?_⟩
      intro x hx y hy
      simp only [List.mem_singleton] at hy
      subst hy
      show x.maxt ≤ (hbAfter hb e).mint
      obtain ⟨z, hzmem, hzt⟩ := hinv.blkMaxtMem x hx
      have hzflat : z ∈ (c.blocks.map
          (blkEnts ct c.format c.symbolizer c.encoding)).flatten :=
        List.mem_flatten.mpr ⟨_, List.mem_map.mpr ⟨x, hx, rfl⟩, hzmem⟩
      rcases hmint_cases with ⟨hhe, hm⟩ | ⟨hhe, hm, _, _, _⟩
      · rw [hm, ← hzt]
        exact hmax_all z (by unfold chunkEntries; exact List.mem_append.mpr (Or.inl hzflat))
      · rw [hm, ← hzt]
        obtain ⟨w, hwmem, hwt⟩ := hinv.headMintMem (by rw [hel]; exact hhe)
        rw [hbnd] at hwt
        simp only at hwt
        have hsorted := hinv.sorted
        unfold chunkEntries at hsorted
        rw [List.pairwise_append] at hsorted
        have hzw := hsorted.2.2 z hzflat w hwmem
        rw [← hwt]
        exact hzw
    · intro x hx
      simp at hx
    · intro x hx
      simp at hx
    · intro h
      exact absurd rfl h
    · intro h
      exact absurd rfl h
    · intro _
      rfl
    · intro h
      exact absurd rfl h
    · intro _ _
      rw [hentsEq, hmaxTsNew, lastBlockMaxt_append]
      rfl
    · intro _ h
      exact absurd rfl h
    · rw [hentsEq]
      exact hsortedNew

/-- Folding successful appends preserves the invariant and concatenates the
entries. -/
theorem appendAll_inv (ct : CodecTable) :
    ∀ (es : List LEntry) (c0 c : MemChunk),
    (∀ bs, (ct c0.encoding).decompress ((ct c0.encoding).compress bs) = bs) →
    OrdInv ct c0 → (∀ e ∈ es, wfEntry e) →
    appendAll ct c0 es = .ok c →
    OrdInv ct c ∧ chunkEntries ct c = chunkEntries ct c0 ++ es ∧
      c.encoding = c0.encoding ∧ c.format = c0.format ∧ c.headFmt = c0.headFmt ∧
      c.blockSize = c0.blockSize ∧ c.targetSize = c0.targetSize := by
  intro es
  induction es with
  | nil =>
    intro c0 c hc hinv hwf hall
    simp only [appendAll, List.foldlM_nil] at hall
    cases hall
    exact ⟨hinv, by simp, rfl, rfl, rfl, rfl, rfl⟩
  | cons e tl ih =>
    intro c0 c hc hinv hwf hall
    simp only [appendAll, List.foldlM_cons] at hall
    rcases hA : MemChunk.Append ct c0 e with ⟨c1, e1, er⟩
    rw [hA] at hall
    cases er with
    | some er' => exact Except.noConfusion hall
    | none =>
      simp only at hall
      have hok : (MemChunk.Append ct c0 e).2.2 = none := by rw [hA]
      have hpres := Append_preserves_inv ct c0 e hc hinv (hwf e (by simp)) hok
      rw [hA] at hpres
      simp only at hpres
      obtain ⟨hinv1, hents1⟩ := hpres
      have hcfg := Append_preserves_cfg ct c0 e
      rw [hA] at hcfg
      simp only at hcfg
      obtain ⟨hf, he, hh, hbs, hts, _⟩ := hcfg
      have hc1 : ∀ bs, (ct c1.encoding).decompress ((ct c1.encoding).compress bs) = bs := by
        rw [he]
        exact hc
      have hrest : appendAll ct c1 tl = .ok c := by
        simpa [appendAll, Except.bind] using hall
      obtain ⟨hi, he2, hx1, hx2, hx3, hx4, hx5⟩ :=
        ih c1 c hc1 hinv1 (fun x hx => hwf x (by simp [hx])) hrest
      refine ⟨hi, ?_, by rw [hx1, he], by rw [hx2, hf], by rw [hx3, hh],
        by rw [hx4, hbs], by rw [hx5, hts]⟩
      rw [he2, hents1, List.append_assoc]
      rfl

theorem chunkEntries_new (ct : CodecTable) (enc headF blockSize targetSize : Nat)
    (h : headF < UnorderedHeadBlockFmt) :
    chunkEntries ct (NewMemChunk enc headF blockSize targetSize) = [] := by
  unfold chunkEntries NewMemChunk newMemChunkWithFormat headBlockFromFmt
  rw [if_pos h]
  rfl

/-- C2: on a chunk with the ordered head format built by successful
appends, appending an entry whose timestamp is strictly below the maximum
timestamp already held (the head's maximum, or the last sealed block's when
the head is empty — i.e. the maximum of all appended timestamps) returns
`ErrOutOfOrder` and leaves the chunk unchanged (hence same entries, `Size`,
`Bounds` and sealed blocks). -/
theorem append_out_of_order (ct : CodecTable) (enc blockSize targetSize : Nat)
    (es : List LEntry) (c : MemChunk) (e : LEntry)
    (hc : ∀ bs, (ct enc).decompress ((ct enc).compress bs) = bs)
    (hwf : ∀ x ∈ es, wfEntry x)
    (hbuild : buildChunk ct enc OrderedHeadBlockFmt blockSize targetSize es = .ok c)
    (hne : es ≠ [])
    (hlt : e.t < maxTs es) :
    (c.Append ct e).1 = c ∧ (c.Append ct e).2.2 = some .ErrOutOfOrder := by
  have hc0 : ∀ bs,
      (ct (NewMemChunk enc OrderedHeadBlockFmt blockSize targetSize).encoding).decompress
        ((ct (NewMemChunk enc OrderedHeadBlockFmt blockSize targetSize).encoding).compress bs) = bs := hc
  obtain ⟨hinv, hents, _, _, _, _, _⟩ := appendAll_inv ct es _ c hc0
    (OrdInv_new ct enc blockSize targetSize) hwf hbuild
  rw [chunkEntries_new ct enc OrderedHeadBlockFmt blockSize targetSize
    (by norm_num [OrderedHeadBlockFmt, UnorderedHeadBlockFmt]), List.nil_append] at hents
  obtain ⟨hb, hhead⟩ := hinv.headOrd
  have hel : c.head.entriesList = hb.entries := by rw [hhead]; rfl
  by_cases hhe : hb.entries = []
  · have hbl : c.blocks ≠ [] := by
      intro hnil
      have hempty : chunkEntries ct c = [] := by
        unfold chunkEntries
        rw [hnil, hel, hhe]
        simp
      rw [hents] at hempty
      exact hne hempty
    have hlbm := hinv.headEmptyB (by rw [hel]; exact hhe) hbl
    rw [hents] at hlbm
    have hprecheck : c.headFmt < UnorderedHeadBlockFmt ∧ c.head.IsEmpty = true ∧
        c.blocks ≠ [] ∧ lastBlockMaxt c.blocks > e.t := by
      refine ⟨?_, ?_, hbl, by omega⟩
      · rw [hinv.hfOrd]
        norm_num [OrderedHeadBlockFmt, UnorderedHeadBlockFmt]
      · rw [hhead]
        simp [hhe]
    unfold MemChunk.Append
    rw [if_pos hprecheck]
    exact ⟨rfl, rfl⟩
  · have hmx := hinv.headMaxt (by rw [hel]; exact hhe)
    have hbnd : c.head.BoundsH = (hb.mint, hb.maxt) := by rw [hhead]; rfl
    rw [hbnd, hents] at hmx
    simp only at hmx
    have hnpre : ¬ (c.headFmt < UnorderedHeadBlockFmt ∧ c.head.IsEmpty = true ∧
        c.blocks ≠ [] ∧ lastBlockMaxt c.blocks > e.t) := by
      rintro ⟨_, h2, _, _⟩
      rw [hhead] at h2
      simp only [HeadBlock.IsEmpty_ordered, List.isEmpty_iff] at h2
      exact hhe h2
    have hfmt : c.format < chunkFormatV4 := by
      rw [hinv.fmt3]
      norm_num [DefaultChunkFormat, chunkFormatV3, chunkFormatV4]
    unfold MemChunk.Append
    rw [if_neg hnpre]
    simp only [if_pos hfmt, hhead, HeadBlock.AppendH, headBlock.Append]
    rw [if_pos (⟨by simp [List.isEmpty_iff, hhe], by omega⟩ :
      ¬ hb.entries.isEmpty = true ∧ hb.maxt > e.t)]
    simp [Except.map]

def wEsC2 : List LEntry := [⟨5, [104], []⟩, ⟨9, [105], []⟩]

def wEntryOOO : LEntry := ⟨7, [106], []⟩

def wC2chunk : MemChunk :=
  (buildChunk idTable EncNone OrderedHeadBlockFmt 100 0 wEsC2).toOption.getD
    (NewMemChunk 0 OrderedHeadBlockFmt 0 0)

theorem append_out_of_order_witness :
    (wC2chunk.Append idTable wEntryOOO).1 = wC2chunk ∧
    (wC2chunk.Append idTable wEntryOOO).2.2 = some .ErrOutOfOrder :=
  append_out_of_order idTable EncNone 100 0 wEsC2 wC2chunk wEntryOOO
    (fun _ => rfl) (by decide) (by rfl) (by decide) (by decide)

/-! ## Iteration (§4.5).
The `iter` combinators (`NewNonOverlappingIterator`, `NewSortEntryIterator`,
`NewTimeRangedIterator`) and the pipeline abstraction are external to
`src/`; their composition is modelled from the spec: ordered forward
iteration concatenates the per-block streams and the head stream, the
unordered case sort-merges by timestamp, and the time-range wrapper keeps
entries with `from ≤ t < to`.  Pipelines are modelled as per-entry
line-filtering rewriters (they never change the timestamp; label-deriving
pipelines are out of scope). -/

inductive Direction where
  | FORWARD
  | BACKWARD
deriving DecidableEq, Repr

abbrev SPipeline := Int → Bytes → Labels → Option Bytes

def noopPipeline : SPipeline := fun _ l _ => some l

/-- Per-entry pipeline application of the streaming block iterator
(`entryBufferedIterator.Next`): drop non-matching entries, rewrite the
line, and attach the structured labels only when `KeepNonIndexedLabels` is
set. -/
def applyPipe (p : SPipeline) (keep : Bool) (es : List LEntry) : List LEntry :=
  es.filterMap (fun e => (p e.t e.s e.nonIndexedLabels).map
    (fun l' => ⟨e.t, l', if keep then e.nonIndexedLabels else []⟩))

/-- The head block's own iterator (`headBlock.Iterator` for the ordered
head; spec-modelled read-time sort for the unordered head).  The head
always attaches its entries' labels. -/
def headIterEntries (h : HeadBlock) (dir : Direction) (mint maxt : Int)
    (p : SPipeline) : List LEntry :=
  match h with
  | .ordered hb =>
    if hb.entries.isEmpty ∨ maxt < hb.mint ∨ hb.maxt < mint then []
    else
      (match dir with
        | .FORWARD => hb.entries
        | .BACKWARD => hb.entries.reverse).filterMap
        (fun (e : LEntry) => if e.t < mint ∨ e.t ≥ maxt then none
          else (p e.t e.s e.nonIndexedLabels).map
            (fun l' => ⟨e.t, l', e.nonIndexedLabels⟩))
  | .unordered hb =>
    if hb.entries.isEmpty ∨ maxt < hb.mint ∨ hb.maxt < mint then []
    else
      (match dir with
        | .FORWARD => hb.entries.mergeSort (fun a b => decide (a.t ≤ b.t))
        | .BACKWARD =>
          (hb.entries.mergeSort (fun a b => decide (a.t ≤ b.t))).reverse).filterMap
        (fun (e : LEntry) => if e.t < mint ∨ e.t ≥ maxt then none
          else (p e.t e.s e.nonIndexedLabels).map
            (fun l' => ⟨e.t, l', e.nonIndexedLabels⟩))

/-- The blocks overlapping the requested range (the `Iterator` skip
condition). -/
def selectBlocks (c : MemChunk) (mint maxt : Int) : List Block :=
  c.blocks.filter (fun b => decide (¬ (maxt < b.mint ∨ b.maxt < mint)))

/-- The `ordered` flag scan of `Iterator`: `lastMax` starts at 0 and each
selected block with `mint < lastMax` marks the merge unordered; returns
the flag and the final `lastMax`. -/
def orderedScan : List Block → Int → Bool → Bool × Int
  | [], lastMax, ordered => (ordered, lastMax)
  | b :: rest, lastMax, ordered =>
    orderedScan rest b.maxt (ordered && decide (¬ b.mint < lastMax))

def tleB (a b : LEntry) : Bool := decide (a.t ≤ b.t)

def tgeB (a b : LEntry) : Bool := decide (b.t ≤ a.t)

def inRangeB (mint maxt : Int) (x : LEntry) : Bool :=
  decide (mint ≤ x.t) && decide (x.t < maxt)

/-- The entries produced by `MemChunk.Iterator` over `[mintT, maxtT)`. -/
def MemChunk.iterEntries (ct : CodecTable) (c : MemChunk) (mint maxt : Int)
    (dir : Direction) (p : SPipeline) (keep : Bool) : List LEntry :=
  let sel := selectBlocks c mint maxt
  let scan := orderedScan sel 0 true
  let ordered := scan.1 &&
    (c.head.IsEmpty || decide (¬ (c.head.BoundsH).1 < scan.2))
  let blockLists := sel.map (fun b =>
    if b.b.isEmpty then []
    else applyPipe p keep (blkEnts ct c.format c.symbolizer c.encoding b))
  match dir with
  | .FORWARD =>
    let all := blockLists.flatten ++ headIterEntries c.head .FORWARD mint maxt p
    let merged := if ordered then all else all.mergeSort tleB
    merged.filter (inRangeB mint maxt)
  | .BACKWARD =>
    let revLists := blockLists.map
      (fun l => (l.filter (inRangeB mint maxt)).reverse)
    let its := (revLists ++ [headIterEntries c.head .BACKWARD mint maxt p]).reverse
    if ordered then its.flatten else its.flatten.mergeSort tgeB

mutual
/-- `Close`: seal the head with `cut`, then `reorder`.  The source's
recursion `Close -> reorder -> Rebound -> Close` is modelled with an
explicit depth budget consumed only by the cross-calls; `5` covers every
chain the source can take. -/
def closeF (ct : CodecTable) : Nat → MemChunk → Except ChunkErr MemChunk
  | 0, _ => .error .depthExceeded
  | fuel + 1, c => reorderF ct fuel (c.cut ct)

/-- `reorder`: when the sealed blocks are monotonically ordered the chunk
is kept; otherwise it is rebuilt by `Rebound` over its own bounds. -/
def reorderF (ct : CodecTable) : Nat → MemChunk → Except ChunkErr MemChunk
  | 0, _ => .error .depthExceeded
  | fuel + 1, c =>
    if (orderedScan c.blocks 0 true).1 then .ok c
    else ReboundF ct fuel c (c.BoundsC).1 (c.BoundsC).2

/-- `Rebound(start, end, nil)`: iterate the chunk forward over
`[start, end + 1ms)` (the source adds a millisecond to the exclusive upper
bound before iterating), append every emitted entry into a fresh chunk
(codec and head format inherited, the head format defaulting when below the
ordered format; block size inherited, or 256 KiB with the original's
compressed size as target size when the block size is zero), fail with
`ErrSliceNoDataInRange` when nothing was appended, and close the result. -/
def ReboundF (ct : CodecTable) : Nat → MemChunk → Int → Int →
    Except ChunkErr MemChunk
  | 0, _, _, _ => .error .depthExceeded
  | fuel + 1, c, start, endT =>
    let es := c.iterEntries ct start (endT + 1000000) .FORWARD noopPipeline true
    let headF := if c.headFmt < OrderedHeadBlockFmt then DefaultHeadBlockFmt
      else c.headFmt
    let base := if c.blockSize > 0 then
        NewMemChunk c.encoding headF c.blockSize c.targetSize
      else NewMemChunk c.encoding headF defaultBlockSize c.CompressedSizeC
    match appendAll ct base es with
    | .error er => .error er
    | .ok nc =>
      if nc.Size = 0 then .error .ErrSliceNoDataInRange
      else closeF ct fuel nc
end

def MemChunk.Close (ct : CodecTable) (c : MemChunk) : Except ChunkErr MemChunk :=
  closeF ct 5 c

def MemChunk.Rebound (ct : CodecTable) (c : MemChunk) (start endT : Int) :
    Except ChunkErr MemChunk :=
  ReboundF ct 5 c start endT

theorem cut_cfg (ct : CodecTable) (c : MemChunk) :
    (c.cut ct).encoding = c.encoding ∧ (c.cut ct).blockSize = c.blockSize ∧
    (c.cut ct).targetSize = c.targetSize := by
  unfold MemChunk.cut
  split
  · exact ⟨rfl, rfl, rfl⟩
  · exact ⟨rfl, rfl, rfl⟩

theorem appendAll_cfg (ct : CodecTable) :
    ∀ (es : List LEntry) (c0 c : MemChunk), appendAll ct c0 es = .ok c →
    c.encoding = c0.encoding ∧ c.blockSize = c0.blockSize ∧
    c.targetSize = c0.targetSize := by
  intro es
  induction es with
  | nil =>
    intro c0 c hall
    simp only [appendAll, List.foldlM_nil] at hall
    cases hall
    exact ⟨rfl, rfl, rfl⟩
  | cons e tl ih =>
    intro c0 c hall
    simp only [appendAll, List.foldlM_cons] at hall
    rcases hA : MemChunk.Append ct c0 e with ⟨c1, e1, er⟩
    rw [hA] at hall
    cases er with
    | some er2 => exact Except.noConfusion hall
    | none =>
      simp only at hall
      have hrest : appendAll ct c1 tl = .ok c := by
        simpa [appendAll, Except.bind] using hall
      obtain ⟨h1, h2, h3⟩ := ih c1 c hrest
      have hcfg := Append_preserves_cfg ct c0 e
      rw [hA] at hcfg
      simp only at hcfg
      obtain ⟨_, he, _, hbs, hts, _⟩ := hcfg
      exact ⟨by rw [h1, he], by rw [h2, hbs], by rw [h3, hts]⟩

/-- Configuration flow of the `Close`/`reorder`/`Rebound` recursion: with a
positive block size, `Close` and `reorder` keep the codec, block size and
target size; `Rebound` always hands back a chunk configured from its
argument by the block-size branch of the source. -/
theorem closeReboundCfg (ct : CodecTable) : ∀ fuel : Nat,
    (∀ c c', c.blockSize > 0 → closeF ct fuel c = .ok c' →
      c'.encoding = c.encoding ∧ c'.blockSize = c.blockSize ∧
      c'.targetSize = c.targetSize) ∧
    (∀ c c', c.blockSize > 0 → reorderF ct fuel c = .ok c' →
      c'.encoding = c.encoding ∧ c'.blockSize = c.blockSize ∧
      c'.targetSize = c.targetSize) ∧
    (∀ c start endT c', ReboundF ct fuel c start endT = .ok c' →
      c'.encoding = c.encoding ∧
      c'.blockSize = (if c.blockSize > 0 then c.blockSize else defaultBlockSize) ∧
      c'.targetSize = (if c.blockSize > 0 then c.targetSize else c.CompressedSizeC)) := by
  intro fuel
  induction fuel with
  | zero =>
    refine ⟨?_, ?_, ?_⟩
    · intro c c' _ h
      simp only [closeF] at h
      exact Except.noConfusion h
    · intro c c' _ h
      simp only [reorderF] at h
      exact Except.noConfusion h
    · intro c start endT c' h
      simp only [ReboundF] at h
      exact Except.noConfusion h
  | succ n ih =>
    obtain ⟨ihClose, ihReorder, ihRebound⟩ := ih
    refine ⟨?_, ?_, ?_⟩
    · intro c c' hbs h
      simp only [closeF] at h
      obtain ⟨hcut1, hcut2, hcut3⟩ := cut_cfg ct c
      obtain ⟨h1, h2, h3⟩ := ihReorder (c.cut ct) c' (by omega) h
      exact ⟨by rw [h1, hcut1], by rw [h2, hcut2], by rw [h3, hcut3]⟩
    · intro c c' hbs h
      simp only [reorderF] at h
      split at h
      · cases h
        exact ⟨rfl, rfl, rfl⟩
      · obtain ⟨h1, h2, h3⟩ := ihRebound c (c.BoundsC).1 (c.BoundsC).2 c' h
        rw [if_pos hbs] at h2 h3
        exact ⟨h1, h2, h3⟩
    · intro c start endT c' h
      simp only [ReboundF] at h
      by_cases hbs : c.blockSize > 0
      · rw [if_pos hbs] at h
        rcases happ : appendAll ct
            (NewMemChunk c.encoding
              (if c.headFmt < OrderedHeadBlockFmt then DefaultHeadBlockFmt
                else c.headFmt) c.blockSize c.targetSize)
            (c.iterEntries ct start (endT + 1000000) .FORWARD noopPipeline true)
          with nc | er
        · rw [happ] at h
          exact Except.noConfusion h
        · rw [happ] at h
          simp only at h
          split at h
          · exact Except.noConfusion h
          · obtain ⟨ha1, ha2, ha3⟩ := appendAll_cfg ct _ _ _ happ
            obtain ⟨h1, h2, h3⟩ := ihClose er c' (by rw [ha2]; exact hbs) h
            simp only [if_pos hbs]
            exact ⟨by rw [h1, ha1]; rfl, by rw [h2, ha2]; rfl, by rw [h3, ha3]; rfl⟩
      · rw [if_neg hbs] at h
        rcases happ : appendAll ct
            (NewMemChunk c.encoding
              (if c.headFmt < OrderedHeadBlockFmt then DefaultHeadBlockFmt
                else c.headFmt) defaultBlockSize c.CompressedSizeC)
            (c.iterEntries ct start (endT + 1000000) .FORWARD noopPipeline true)
          with nc | er
        · rw [happ] at h
          exact Except.noConfusion h
        · rw [happ] at h
          simp only at h
          split at h
          · exact Except.noConfusion h
          · obtain ⟨ha1, ha2, ha3⟩ := appendAll_cfg ct _ _ _ happ
            obtain ⟨h1, h2, h3⟩ := ihClose er c'
              (by rw [ha2]; show defaultBlockSize > 0; norm_num [defaultBlockSize]) h
            simp only [if_neg hbs]
            exact ⟨by rw [h1, ha1]; rfl, by rw [h2, ha2]; rfl, by rw [h3, ha3]; rfl⟩

/-- C8 (corrected): the chunk returned by a successful `Rebound` inherits
the original's codec; its block size is the original's, or 256 KiB when the
original's block size is zero; but the target size is the original's
compressed size only in that zero-block-size fallback — with a positive
block size the original's target size is inherited unchanged, contrary to
the unconditional wording. -/
theorem rebound_config (ct : CodecTable) (c : MemChunk) (start endT : Int)
    (c' : MemChunk) (hrb : c.Rebound ct start endT = .ok c') :
    c'.encoding = c.encoding ∧
    c'.blockSize = (if c.blockSize > 0 then c.blockSize else defaultBlockSize) ∧
    c'.targetSize = (if c.blockSize > 0 then c.targetSize else c.CompressedSizeC) :=
  (closeReboundCfg ct 5).2.2 c start endT c' hrb

def wEsC8 : List LEntry := [⟨3, [97], []⟩, ⟨5, [98], []⟩]

def wC8chunk : MemChunk :=
  (buildChunk idTable EncNone OrderedHeadBlockFmt 512 777 wEsC8).toOption.getD
    (NewMemChunk 0 OrderedHeadBlockFmt 0 0)

def wC8res : MemChunk :=
  (wC8chunk.Rebound idTable 0 10).toOption.getD
    (NewMemChunk 0 OrderedHeadBlockFmt 0 0)

theorem rebound_config_witness :
    wC8res.encoding = wC8chunk.encoding ∧
    wC8res.blockSize =
      (if wC8chunk.blockSize > 0 then wC8chunk.blockSize else defaultBlockSize) ∧
    wC8res.targetSize =
      (if wC8chunk.blockSize > 0 then wC8chunk.targetSize
        else wC8chunk.CompressedSizeC) :=
  rebound_config idTable wC8chunk 0 10 wC8res (by rfl)

/-- A rebound of a chunk with a positive block size keeps the original
target size `777`, which differs from the original's compressed size: the
spec's unconditional "target compressed size is the original's current
compressed size" does not hold. -/
theorem rebound_config_counterexample :
    wC8chunk.Rebound idTable 0 10 = .ok wC8res ∧
    wC8res.targetSize ≠ wC8chunk.CompressedSizeC :=
  ⟨by rfl, by decide⟩

/-! Timestamp-sequence lemmas for iteration order. -/

theorem applyPipe_ts_sublist (p : SPipeline) (keep : Bool) (es : List LEntry) :
    List.Sublist ((applyPipe p keep es).map LEntry.t) (es.map LEntry.t) := by
  induction es with
  | nil => simp [applyPipe]
  | cons e tl ih =>
    simp only [applyPipe, List.filterMap_cons, List.map_cons]
    cases p e.t e.s e.nonIndexedLabels with
    | none => exact ih.cons e.t
    | some l' => exact ih.cons₂ e.t

theorem filterMapTime_ts_sublist (mint maxt : Int) (p : SPipeline) :
    ∀ es : List LEntry,
    List.Sublist
      ((es.filterMap (fun (e : LEntry) => if e.t < mint ∨ e.t ≥ maxt then none
        else (p e.t e.s e.nonIndexedLabels).map
          (fun l' => (⟨e.t, l', e.nonIndexedLabels⟩ : LEntry)))).map LEntry.t)
      (es.map LEntry.t) := by
  intro es
  induction es with
  | nil => simp
  | cons e tl ih =>
    simp only [List.filterMap_cons, List.map_cons]
    by_cases hcond : e.t < mint ∨ e.t ≥ maxt
    · simp only [if_pos hcond]
      exact ih.cons e.t
    · simp only [if_neg hcond]
      cases hp : p e.t e.s e.nonIndexedLabels with
      | none => exact ih.cons e.t
      | some l' => exact ih.cons₂ e.t

theorem headIter_forward_ts_sublist (hb : headBlock) (mint maxt : Int)
    (p : SPipeline) :
    List.Sublist
      ((headIterEntries (.ordered hb) .FORWARD mint maxt p).map LEntry.t)
      (hb.entries.map LEntry.t) := by
  simp only [headIterEntries]
  split
  · simp
  · exact filterMapTime_ts_sublist mint maxt p hb.entries

theorem flatten_map_sublist {α β : Type} (l : List α) (f g : α → List β)
    (h : ∀ a ∈ l, List.Sublist (f a) (g a)) :
    List.Sublist ((l.map f).flatten) ((l.map g).flatten) := by
  induction l with
  | nil => simp
  | cons a tl ih =>
    simp only [List.map_cons, List.flatten_cons]
    exact (h a (by simp)).append (ih (fun x hx => h x (by simp [hx])))

theorem flatten_sublist_of_sublist {α : Type} :
    ∀ {l1 l2 : List (List α)}, List.Sublist l1 l2 →
    List.Sublist l1.flatten l2.flatten := by
  intro l1 l2 h
  induction h with
  | slnil => simp
  | cons a _ ih =>
    simp only [List.flatten_cons]
    exact ih.trans (List.sublist_append_right _ _)
  | cons₂ a _ ih =>
    simp only [List.flatten_cons]
    exact ih.append_left a

theorem applyPipe_t_mem (p : SPipeline) (keep : Bool) (es : List LEntry)
    (x : LEntry) (hx : x ∈ applyPipe p keep es) : ∃ y ∈ es, x.t = y.t := by
  unfold applyPipe at hx
  obtain ⟨a, ha, hfa⟩ := List.mem_filterMap.mp hx
  obtain ⟨l2, _, hxl⟩ := Option.map_eq_some'.mp hfa
  exact ⟨a, ha, by rw [← hxl]⟩

theorem headIter_t_mem (hb : headBlock) (mint maxt : Int)
    (p : SPipeline) (x : LEntry)
    (hx : x ∈ headIterEntries (.ordered hb) .FORWARD mint maxt p) :
    ∃ y ∈ hb.entries, x.t = y.t := by
  simp only [headIterEntries] at hx
  split at hx
  · simp at hx
  · obtain ⟨a, ha, hfa⟩ := List.mem_filterMap.mp hx
    split at hfa
    · exact Option.noConfusion hfa
    · obtain ⟨l2, _, hxl⟩ := Option.map_eq_some'.mp hfa
      exact ⟨a, ha, by rw [← hxl]⟩

theorem pairwise_tle_ts (es' es : List LEntry) (h : List.Pairwise tle es)
    (hs : List.Sublist (es'.map LEntry.t) (es.map LEntry.t)) :
    List.Pairwise tle es' := by
  have h1 : List.Pairwise (fun a b : Int => a ≤ b) (es.map LEntry.t) :=
    List.pairwise_map.mpr h
  have h2 := List.Pairwise.sublist hs h1
  have h3 := List.pairwise_map.mp h2
  exact h3

theorem tleB_trans (a b c : LEntry) : tleB a b → tleB b c → tleB a c := by
  simp only [tleB, decide_eq_true_eq]
  omega

theorem tleB_total (a b : LEntry) : tleB a b || tleB b a := by
  simp only [tleB, Bool.or_eq_true, decide_eq_true_eq]
  omega

/-- Under the build invariant, the concatenation of the selected blocks'
streams and the head's stream is sorted by timestamp. -/
theorem OrdInv_all_pairwise (ct : CodecTable) (c : MemChunk)
    (hinv : OrdInv ct c) (mint maxt : Int) (p : SPipeline) (keep : Bool) :
    List.Pairwise tle
      (((selectBlocks c mint maxt).map (fun b =>
          if b.b.isEmpty then []
          else applyPipe p keep
            (blkEnts ct c.format c.symbolizer c.encoding b))).flatten ++
        headIterEntries c.head .FORWARD mint maxt p) := by
  obtain ⟨hb, hhead⟩ := hinv.headOrd
  have hel : c.head.entriesList = hb.entries := by rw [hhead]; rfl
  have hsorted := hinv.sorted
  have hselSub : List.Sublist (selectBlocks c mint maxt) c.blocks :=
    List.filter_sublist _
  have hsubB : ∀ b ∈ c.blocks,
      List.Sublist (blkEnts ct c.format c.symbolizer c.encoding b)
        (chunkEntries ct c) := by
    intro b hbm
    unfold chunkEntries
    exact (List.sublist_flatten_of_mem
      (List.mem_map.mpr ⟨b, hbm, rfl⟩)).trans (List.sublist_append_left _ _)
  have hblkPair : ∀ b ∈ c.blocks,
      List.Pairwise tle (blkEnts ct c.format c.symbolizer c.encoding b) :=
    fun b hbm => List.Pairwise.sublist (hsubB b hbm) hsorted
  have hheadPair : List.Pairwise tle hb.entries := by
    refine List.Pairwise.sublist ?_ hsorted
    unfold chunkEntries
    rw [hel]
    exact List.sublist_append_right _ _
  have hcross0 : ∀ x ∈ (c.blocks.map
        (blkEnts ct c.format c.symbolizer c.encoding)).flatten,
      ∀ y ∈ c.head.entriesList, tle x y := by
    have h := hsorted
    unfold chunkEntries at h
    rw [List.pairwise_append] at h
    exact h.2.2
  rw [List.pairwise_append]
  refine ⟨?_, ?_, ?_⟩
  · rw [List.pairwise_flatten]
    constructor
    · intro l hl
      obtain ⟨b, hbm, rfl⟩ := List.mem_map.mp hl
      split
      · simp
      · exact pairwise_tle_ts _ _ (hblkPair b (hselSub.subset hbm))
          (applyPipe_ts_sublist p keep _)
    · rw [List.pairwise_map]
      refine List.Pairwise.imp_of_mem ?_
        (List.Pairwise.sublist hselSub hinv.blocksPairwise)
      intro b1 b2 hb1 hb2 hle x hx y hy
      by_cases h1 : b1.b.isEmpty
      · rw [if_pos h1] at hx; simp at hx
      · rw [if_neg h1] at hx
        by_cases h2 : b2.b.isEmpty
        · rw [if_pos h2] at hy; simp at hy
        · rw [if_neg h2] at hy
          obtain ⟨x0, hx0, hxt⟩ := applyPipe_t_mem p keep _ x hx
          obtain ⟨y0, hy0, hyt⟩ := applyPipe_t_mem p keep _ y hy
          have hc1 := (hinv.blkContain b1 (hselSub.subset hb1) x0 hx0).2
          have hc2 := (hinv.blkContain b2 (hselSub.subset hb2) y0 hy0).1
          show x.t ≤ y.t
          omega
  · rw [hhead]
    exact pairwise_tle_ts _ _ hheadPair
      (headIter_forward_ts_sublist hb mint maxt p)
  · intro x hx y hy
    obtain ⟨l, hl, hxl⟩ := List.mem_flatten.mp hx
    obtain ⟨b, hbm, rfl⟩ := List.mem_map.mp hl
    by_cases h1 : b.b.isEmpty
    · rw [if_pos h1] at hxl; simp at hxl
    · rw [if_neg h1] at hxl
      obtain ⟨x0, hx0, hxt⟩ := applyPipe_t_mem p keep _ x hxl
      rw [hhead] at hy
      obtain ⟨y0, hy0, hyt⟩ := headIter_t_mem hb mint maxt p y hy
      have hx0c : x0 ∈ (c.blocks.map
          (blkEnts ct c.format c.symbolizer c.encoding)).flatten :=
        List.mem_flatten.mpr
          ⟨_, List.mem_map.mpr ⟨b, hselSub.subset hbm, rfl⟩, hx0⟩
      have hy0c : y0 ∈ c.head.entriesList := by rw [hel]; exact hy0
      have hxy : x0.t ≤ y0.t := hcross0 x0 hx0c y0 hy0c
      show x.t ≤ y.t
      omega
/-- Under the build invariant, the forward iteration stream is sorted by
timestamp: both the ordered concatenation and the sort-merge fallback are
`tle`-pairwise, and the trailing range filter preserves this. -/
theorem OrdInv_iterEntries_forward_pairwise (ct : CodecTable) (c : MemChunk)
    (hinv : OrdInv ct c) (mint maxt : Int) (p : SPipeline) (keep : Bool) :
    List.Pairwise tle (c.iterEntries ct mint maxt .FORWARD p keep) := by
  have hallPair := OrdInv_all_pairwise ct c hinv mint maxt p keep
  simp only [MemChunk.iterEntries]
  refine List.Pairwise.sublist (List.filter_sublist _) ?_
  split
  · exact hallPair
  · have hms := List.sorted_mergeSort tleB_trans tleB_total
      (((selectBlocks c mint maxt).map (fun b =>
          if b.b.isEmpty then []
          else applyPipe p keep
            (blkEnts ct c.format c.symbolizer c.encoding b))).flatten ++
        headIterEntries c.head .FORWARD mint maxt p)
    exact hms.imp (fun hab => of_decide_eq_true hab)

/-- C7: a chunk with the ordered head format built by a sequence of
successful appends emits entries with non-decreasing timestamps under a
forward iteration over any time range (in particular the whole range): the
sorted-by-timestamp chain holds for every consecutive pair of the stream. -/
theorem iterator_forward_sorted (ct : CodecTable) (enc blockSize targetSize : Nat)
    (es : List LEntry) (c : MemChunk)
    (hc : ∀ bs, (ct enc).decompress ((ct enc).compress bs) = bs)
    (hwf : ∀ x ∈ es, wfEntry x)
    (hbuild : buildChunk ct enc OrderedHeadBlockFmt blockSize targetSize es = .ok c)
    (mint maxt : Int) (p : SPipeline) (keep : Bool) :
    List.Pairwise tle (c.iterEntries ct mint maxt .FORWARD p keep) := by
  have hc0 : ∀ bs,
      (ct (NewMemChunk enc OrderedHeadBlockFmt blockSize targetSize).encoding).decompress
        ((ct (NewMemChunk enc OrderedHeadBlockFmt blockSize targetSize).encoding).compress bs) = bs := hc
  obtain ⟨hinv, _⟩ := appendAll_inv ct es _ c hc0
    (OrdInv_new ct enc blockSize targetSize) hwf hbuild
  exact OrdInv_iterEntries_forward_pairwise ct c hinv mint maxt p keep

def wEsC7 : List LEntry := [⟨3, [97], []⟩, ⟨4, [98], []⟩]

def wC7chunk : MemChunk :=
  (buildChunk idTable EncNone OrderedHeadBlockFmt 100 0 wEsC7).toOption.getD
    (NewMemChunk 0 OrderedHeadBlockFmt 0 0)

theorem iterator_forward_sorted_witness :
    List.Pairwise tle (wC7chunk.iterEntries idTable 0 100 .FORWARD noopPipeline true) :=
  iterator_forward_sorted idTable EncNone 100 0 wEsC7 wC7chunk
    (fun _ => rfl) (by decide) (by rfl) 0 100 noopPipeline true

theorem applyPipe_noop (es : List LEntry) :
    applyPipe noopPipeline true es = es := by
  induction es with
  | nil => rfl
  | cons e tl ih =>
    simp only [applyPipe, noopPipeline, List.filterMap_cons] at *
    rw [ih]
    cases e
    simp

theorem filterMapTime_noop (mint maxt : Int) : ∀ es : List LEntry,
    (es.filterMap (fun (e : LEntry) => if e.t < mint ∨ e.t ≥ maxt then none
      else (noopPipeline e.t e.s e.nonIndexedLabels).map
        (fun l2 => (⟨e.t, l2, e.nonIndexedLabels⟩ : LEntry)))) =
    es.filter (inRangeB mint maxt) := by
  intro es
  induction es with
  | nil => rfl
  | cons e tl ih =>
    simp only [List.filterMap_cons, List.filter_cons]
    by_cases hcond : e.t < mint ∨ e.t ≥ maxt
    · rw [if_pos hcond]
      have hr : inRangeB mint maxt e = false := by
        simp only [inRangeB, Bool.and_eq_false_iff, decide_eq_false_iff_not]
        omega
      rw [hr, ih]
      simp
    · rw [if_neg hcond]
      have hr : inRangeB mint maxt e = true := by
        simp only [inRangeB, Bool.and_eq_true, decide_eq_true_eq]
        omega
      have hsome : (noopPipeline e.t e.s e.nonIndexedLabels).map
          (fun l2 => (⟨e.t, l2, e.nonIndexedLabels⟩ : LEntry)) = some e := by
        cases e
        rfl
      rw [hsome, hr, ih]
      simp

theorem headIter_noop (hb : headBlock) (mint maxt : Int) :
    headIterEntries (.ordered hb) .FORWARD mint maxt noopPipeline =
      if hb.entries.isEmpty ∨ maxt < hb.mint ∨ hb.maxt < mint then []
      else hb.entries.filter (inRangeB mint maxt) := by
  simp only [headIterEntries]
  by_cases h : (hb.entries.isEmpty ∨ maxt < hb.mint ∨ hb.maxt < mint)
  · rw [if_pos h, if_pos h]
  · rw [if_neg h, if_neg h]
    exact filterMapTime_noop mint maxt hb.entries

/-- Skipped blocks contribute nothing once the range filter runs: filtering
the selected blocks' entries equals filtering all blocks' entries. -/
theorem filter_flatten_select (ct : CodecTable) (fmt : Nat) (sy : Symbolizer)
    (enc : Nat) (mint maxt : Int) : ∀ bs : List Block,
    (∀ b ∈ bs, ∀ x ∈ blkEnts ct fmt sy enc b, b.mint ≤ x.t ∧ x.t ≤ b.maxt) →
    ((bs.filter (fun b => decide (¬ (maxt < b.mint ∨ b.maxt < mint)))).map
        (blkEnts ct fmt sy enc)).flatten.filter (inRangeB mint maxt) =
      ((bs.map (blkEnts ct fmt sy enc)).flatten).filter (inRangeB mint maxt) := by
  intro bs
  induction bs with
  | nil => intro _; rfl
  | cons b rest ih =>
    intro h
    have ih' := ih (fun x hx => h x (by simp [hx]))
    simp only [List.filter_cons]
    by_cases hsel : (maxt < b.mint ∨ b.maxt < mint)
    · rw [if_neg (by simp [hsel])]
      simp only [List.map_cons, List.flatten_cons, List.filter_append]
      rw [ih']
      have hnil : (blkEnts ct fmt sy enc b).filter (inRangeB mint maxt) = [] := by
        rw [List.filter_eq_nil_iff]
        intro x hx
        have hc := h b (by simp) x hx
        simp only [inRangeB, Bool.and_eq_true, decide_eq_true_eq, not_and]
        omega
      rw [hnil]
      simp
    · rw [if_pos (by simp only [decide_eq_true_eq]; exact hsel)]
      simp only [List.map_cons, List.flatten_cons, List.filter_append]
      rw [ih']

theorem orderedScan_true : ∀ (bs : List Block) (lastMax : Int),
    List.Pairwise (fun b1 b2 => b1.maxt ≤ b2.mint) bs →
    (∀ b0, bs.head? = some b0 → lastMax ≤ b0.mint) →
    (orderedScan bs lastMax true).1 = true := by
  intro bs
  induction bs with
  | nil => intro lastMax _ _; rfl
  | cons b rest ih =>
    intro lastMax hpair hhead
    have hb0 : lastMax ≤ b.mint := hhead b rfl
    have hflag : (true && decide (¬ b.mint < lastMax)) = true := by
      simp only [Bool.true_and, decide_eq_true_eq]
      omega
    show (orderedScan rest b.maxt (true && decide (¬ b.mint < lastMax))).1 = true
    rw [hflag]
    exact ih b.maxt hpair.of_cons
      (fun b0 hb0' => (List.rel_of_pairwise_cons hpair (List.mem_of_mem_head? hb0')))

theorem foldl_numEntries (ct : CodecTable) (fmt : Nat) (sy : Symbolizer) (enc : Nat) :
    ∀ (bs : List Block) (a : Nat),
    (∀ b ∈ bs, b.numEntries = (blkEnts ct fmt sy enc b).length) →
    bs.foldl (fun x b => x + b.numEntries) a =
      a + ((bs.map (blkEnts ct fmt sy enc)).flatten).length := by
  intro bs
  induction bs with
  | nil => intro a _; simp
  | cons b rest ih =>
    intro a h
    simp only [List.foldl_cons, List.map_cons, List.flatten_cons, List.length_append]
    rw [ih (a + b.numEntries) (fun x hx => h x (by simp [hx])), h b (by simp)]
    omega

theorem Size_eq_length (ct : CodecTable) (c : MemChunk) (hinv : OrdInv ct c) :
    c.Size = (chunkEntries ct c).length := by
  obtain ⟨hb, hhead⟩ := hinv.headOrd
  unfold MemChunk.Size chunkEntries
  rw [foldl_numEntries ct c.format c.symbolizer c.encoding c.blocks 0 hinv.blkNum]
  rw [List.length_append, hhead]
  simp only [HeadBlock.EntriesN, HeadBlock.entriesList]
  omega

theorem chunkEntries_wf (ct : CodecTable) (c : MemChunk) (hinv : OrdInv ct c) :
    ∀ x ∈ chunkEntries ct c, wfEntry x := by
  intro x hx
  unfold chunkEntries at hx
  rcases List.mem_append.mp hx with h | h
  · obtain ⟨l, hl, hxl⟩ := List.mem_flatten.mp h
    obtain ⟨b, hbm, rfl⟩ := List.mem_map.mp hl
    exact hinv.blkWf b hbm x hxl
  · exact hinv.headWf x h

theorem encEntry_ne_nil (e : LEntry) : encEntry e ≠ [] := by
  unfold encEntry putVarint
  intro h
  have := putUvarint_ne_nil (zigzag e.t)
  simp only [List.append_assoc, List.append_eq_nil] at h
  exact this h.1

theorem encEntries_ne_nil (es : List LEntry) (h : es ≠ []) :
    encEntries es ≠ [] := by
  cases es with
  | nil => exact absurd rfl h
  | cons e tl =>
    unfold encEntries
    simp only [List.map_cons, List.flatten_cons]
    intro hh
    rw [List.append_eq_nil] at hh
    exact encEntry_ne_nil e hh.1

theorem iterEntries_filter (ct : CodecTable) (c : MemChunk) (hinv : OrdInv ct c)
    (hbne : ∀ blk ∈ c.blocks, blk.b ≠ []) (mint maxt : Int) :
    c.iterEntries ct mint maxt .FORWARD noopPipeline true =
      (chunkEntries ct c).filter (inRangeB mint maxt) := by
  obtain ⟨hb, hhead⟩ := hinv.headOrd
  have hbnd : c.head.BoundsH = (hb.mint, hb.maxt) := by rw [hhead]; rfl
  have hall := OrdInv_all_pairwise ct c hinv mint maxt noopPipeline true
  have hmapeq : (selectBlocks c mint maxt).map (fun b =>
      if b.b.isEmpty then []
      else applyPipe noopPipeline true (blkEnts ct c.format c.symbolizer c.encoding b)) =
      (selectBlocks c mint maxt).map (blkEnts ct c.format c.symbolizer c.encoding) := by
    apply List.map_congr_left
    intro b hbm
    have hbmem : b ∈ c.blocks := (List.filter_sublist _).subset hbm
    rw [if_neg (by simpa [List.isEmpty_iff] using hbne b hbmem)]
    exact applyPipe_noop _
  have key : ((((selectBlocks c mint maxt).map (fun b =>
      if b.b.isEmpty then []
      else applyPipe noopPipeline true
        (blkEnts ct c.format c.symbolizer c.encoding b))).flatten ++
      headIterEntries c.head .FORWARD mint maxt noopPipeline)).filter (inRangeB mint maxt) =
      (chunkEntries ct c).filter (inRangeB mint maxt) := by
    rw [hmapeq, hhead, headIter_noop, List.filter_append]
    unfold chunkEntries
    rw [hhead, List.filter_append]
    simp only [HeadBlock.entriesList_ordered]
    have hleft : (((selectBlocks c mint maxt).map
        (blkEnts ct c.format c.symbolizer c.encoding)).flatten).filter (inRangeB mint maxt) =
        ((c.blocks.map (blkEnts ct c.format c.symbolizer c.encoding)).flatten).filter
          (inRangeB mint maxt) := by
      unfold selectBlocks
      exact filter_flatten_select ct c.format c.symbolizer c.encoding mint maxt
        c.blocks hinv.blkContain
    rw [hleft]
    congr 1
    by_cases hcond : (hb.entries.isEmpty ∨ maxt < hb.mint ∨ hb.maxt < mint)
    · rw [if_pos hcond]
      have hnil : hb.entries.filter (inRangeB mint maxt) = [] := by
        rw [List.filter_eq_nil_iff]
        intro x hx
        have hc := hinv.headContain x (by rw [hhead]; exact hx)
        rw [hbnd] at hc
        simp only at hc
        simp only [inRangeB, Bool.and_eq_true, decide_eq_true_eq, not_and]
        rcases hcond with he | hm | hm
        · rw [List.isEmpty_iff] at he
          rw [he] at hx
          simp at hx
        · omega
        · omega
      rw [hnil]
      rfl
    · rw [if_neg hcond]
      rw [List.filter_filter]
      apply List.filter_congr
      intro x _
      exact Bool.and_self _
  simp only [MemChunk.iterEntries]
  split
  · exact key
  · have hallB := hall.imp (fun {a b} h => show tleB a b = true by
      simp only [tleB, decide_eq_true_eq]
      exact h)
    rw [List.mergeSort_of_sorted hallB]
    exact key

theorem cut_entries (ct : CodecTable) (c : MemChunk) (hb : headBlock)
    (hhead : c.head = .ordered hb) (hne : ¬ c.head.IsEmpty = true) :
    c.cut ct = { c with
      head := .ordered {}
      blocks := c.blocks ++
        [{ b := (ct c.encoding).compress (encEntries hb.entries)
           numEntries := hb.entries.length
           mint := hb.mint
           maxt := hb.maxt
           offset := 0
           uncompressedSize := hb.size }]
      cutBlockSize := c.cutBlockSize +
        ((ct c.encoding).compress (encEntries hb.entries)).length } := by
  unfold MemChunk.cut
  rw [if_neg hne, hhead]
  rfl

/-- `cut` preserves the build invariant and the chunk's entry sequence,
empties the head, and keeps the configuration. -/
theorem cut_inv (ct : CodecTable) (c : MemChunk)
    (hc : ∀ bs, (ct c.encoding).decompress ((ct c.encoding).compress bs) = bs)
    (hinv : OrdInv ct c) :
    OrdInv ct (c.cut ct) ∧ chunkEntries ct (c.cut ct) = chunkEntries ct c ∧
    (c.cut ct).head.entriesList = [] ∧ (c.cut ct).format = c.format ∧
    (c.cut ct).headFmt = c.headFmt ∧ (c.cut ct).encoding = c.encoding ∧
    (c.cut ct).blockSize = c.blockSize ∧ (c.cut ct).targetSize = c.targetSize := by
  obtain ⟨hb, hhead⟩ := hinv.headOrd
  have hel : c.head.entriesList = hb.entries := by rw [hhead]; rfl
  have hbnd : c.head.BoundsH = (hb.mint, hb.maxt) := by rw [hhead]; rfl
  by_cases hemp : c.head.IsEmpty = true
  · have hcut : c.cut ct = c := by unfold MemChunk.cut; rw [if_pos hemp]
    rw [hcut]
    refine ⟨hinv, rfl, ?_, rfl, rfl, rfl, rfl, rfl⟩
    rw [hel]
    rw [hhead] at hemp
    simpa [HeadBlock.IsEmpty, headBlock.IsEmpty, List.isEmpty_iff] using hemp
  · have hhe : hb.entries ≠ [] := by
      rw [hhead] at hemp
      simpa [HeadBlock.IsEmpty, headBlock.IsEmpty, List.isEmpty_iff] using hemp
    have hcut := cut_entries ct c hb hhead hemp
    have hfmt : c.format < chunkFormatV4 := by
      rw [hinv.fmt3]
      norm_num [DefaultChunkFormat, chunkFormatV3, chunkFormatV4]
    have hdecomp : (ct c.encoding).decompress
        ((ct c.encoding).compress (encEntries hb.entries)) =
        encEntries hb.entries := hc _
    have hwfh : ∀ x ∈ hb.entries, wfEntry x :=
      fun x hx => hinv.headWf x (by rw [hel]; exact hx)
    have hrt := decodeEntriesP_encEntries c.format
      (by simpa [chunkFormatV4] using hfmt) c.symbolizer hb.entries hwfh
    have hnbEnts : blkEnts ct c.format c.symbolizer c.encoding
        { b := (ct c.encoding).compress (encEntries hb.entries)
          numEntries := hb.entries.length
          mint := hb.mint
          maxt := hb.maxt
          offset := 0
          uncompressedSize := hb.size } = hb.entries := by
      rw [blkEnts_mk, hdecomp, hrt]
    have hnbOK : blkOKP ct c.format c.symbolizer c.encoding
        { b := (ct c.encoding).compress (encEntries hb.entries)
          numEntries := hb.entries.length
          mint := hb.mint
          maxt := hb.maxt
          offset := 0
          uncompressedSize := hb.size } := by
      rw [blkOKP_mk, hdecomp, hrt]
    rw [hcut]
    have hentsEq : chunkEntries ct { c with
        head := .ordered {}
        blocks := c.blocks ++
          [{ b := (ct c.encoding).compress (encEntries hb.entries)
             numEntries := hb.entries.length
             mint := hb.mint
             maxt := hb.maxt
             offset := 0
             uncompressedSize := hb.size }]
        cutBlockSize := c.cutBlockSize +
          ((ct c.encoding).compress (encEntries hb.entries)).length } =
        chunkEntries ct c := by
      rw [chunkEntries_setCut, List.map_append, List.flatten_append]
      simp only [List.map_cons, List.map_nil, List.flatten_cons, List.flatten_nil,
        List.append_nil, HeadBlock.entriesList_ordered]
      rw [hnbEnts]
      unfold chunkEntries
      rw [hel]
    refine ⟨⟨hinv.fmt3, hinv.hfOrd, ⟨{}, rfl⟩, ?_, ?_, ?_, ?_, ?_, ?_, ?_, ?_,
      ?_, ?_, ?_, ?_, ?_, ?_, ?_, ?_, ?_⟩, hentsEq, rfl, rfl, rfl, rfl, rfl, rfl⟩
    · intro blk hblk
      rcases List.mem_append.mp hblk with h | h
      · exact hinv.blkOks blk h
      · simp only [List.mem_singleton] at h
        subst h
        exact hnbOK
    · intro blk hblk
      rcases List.mem_append.mp hblk with h | h
      · exact hinv.blkNe blk h
      · simp only [List.mem_singleton] at h
        subst h
        show blkEnts ct c.format c.symbolizer c.encoding _ ≠ []
        rw [hnbEnts]
        exact hhe
    · intro blk hblk
      rcases List.mem_append.mp hblk with h | h
      · exact hinv.blkWf blk h
      · simp only [List.mem_singleton] at h
        subst h
        show ∀ x ∈ blkEnts ct c.format c.symbolizer c.encoding _, wfEntry x
        rw [hnbEnts]
        exact hwfh
    · intro blk hblk
      rcases List.mem_append.mp hblk with h | h
      · exact hinv.blkNum blk h
      · simp only [List.mem_singleton] at h
        subst h
        show _ = (blkEnts ct c.format c.symbolizer c.encoding _).length
        rw [hnbEnts]
    · intro blk hblk
      rcases List.mem_append.mp hblk with h | h
      · exact hinv.blkContain blk h
      · simp only [List.mem_singleton] at h
        subst h
        intro x hx
        rw [show blkEnts ct _ _ _ _ = hb.entries from hnbEnts] at hx
        have hcx := hinv.headContain x (by rw [hel]; exact hx)
        rw [hbnd] at hcx
        exact hcx
    · intro blk hblk
      rcases List.mem_append.mp hblk with h | h
      · exact hinv.blkMintMem blk h
      · simp only [List.mem_singleton] at h
        subst h
        rw [show blkEnts ct _ _ _ _ = hb.entries from hnbEnts]
        have hmm := hinv.headMintMem (by rw [hel]; exact hhe)
        rw [hel, hbnd] at hmm
        exact hmm
    · intro blk hblk
      rcases List.mem_append.mp hblk with h | h
      · exact hinv.blkMaxtMem blk h
      · simp only [List.mem_singleton] at h
        subst h
        rw [show blkEnts ct _ _ _ _ = hb.entries from hnbEnts]
        have hmm := hinv.headMaxtMem (by rw [hel]; exact hhe)
        rw [hel, hbnd] at hmm
        exact hmm
    · rw [List.pairwise_append]
      refine ⟨hinv.blocksPairwise, by simp, ?_⟩
      intro x hx y hy
      simp only [List.mem_singleton] at hy
      subst hy
      show x.maxt ≤ hb.mint
      obtain ⟨z, hzmem, hzt⟩ := hinv.blkMaxtMem x hx
      have hzflat : z ∈ (c.blocks.map
          (blkEnts ct c.format c.symbolizer c.encoding)).flatten :=
        List.mem_flatten.mpr ⟨_, List.mem_map.mpr ⟨x, hx, rfl⟩, hzmem⟩
      obtain ⟨w, hwmem, hwt⟩ := hinv.headMintMem (by rw [hel]; exact hhe)
      rw [hbnd] at hwt
      simp only at hwt
      have hsorted := hinv.sorted
      unfold chunkEntries at hsorted
      rw [List.pairwise_append] at hsorted
      have hzw := hsorted.2.2 z hzflat w hwmem
      rw [← hzt, ← hwt]
      exact hzw
    · intro x hx
      simp at hx
    · intro x hx
      simp at hx
    · intro h
      exact absurd rfl h
    · intro h
      exact absurd rfl h
    · intro _
      rfl
    · intro h
      exact absurd rfl h
    · intro _ _
      rw [hentsEq, lastBlockMaxt_append]
      have hh := hinv.headMaxt (by rw [hel]; exact hhe)
      rw [hbnd] at hh
      simp only at hh
      exact hh
    · intro _ h
      exact absurd rfl h
    · rw [hentsEq]
      exact hinv.sorted

theorem cut_bne (ct : CodecTable) (c : MemChunk)
    (hcne : ∀ bs, bs ≠ [] → (ct c.encoding).compress bs ≠ [])
    (hinv : OrdInv ct c) (hbne : ∀ blk ∈ c.blocks, blk.b ≠ []) :
    ∀ blk ∈ (c.cut ct).blocks, blk.b ≠ [] := by
  obtain ⟨hb, hhead⟩ := hinv.headOrd
  by_cases hemp : c.head.IsEmpty = true
  · rw [show c.cut ct = c from by unfold MemChunk.cut; rw [if_pos hemp]]
    exact hbne
  · have hhe : hb.entries ≠ [] := by
      rw [hhead] at hemp
      simpa [HeadBlock.IsEmpty, headBlock.IsEmpty, List.isEmpty_iff] using hemp
    rw [cut_entries ct c hb hhead hemp]
    intro blk hblk
    rcases List.mem_append.mp hblk with h | h
    · exact hbne blk h
    · simp only [List.mem_singleton] at h
      subst h
      exact hcne _ (encEntries_ne_nil _ hhe)

theorem Append_ok_of_ge (ct : CodecTable) (c : MemChunk) (e : LEntry)
    (hinv : OrdInv ct c) (hge : ∀ x ∈ chunkEntries ct c, x.t ≤ e.t) :
    (c.Append ct e).2.2 = none := by
  obtain ⟨hb, hhead⟩ := hinv.headOrd
  have hel : c.head.entriesList = hb.entries := by rw [hhead]; rfl
  have hbnd : c.head.BoundsH = (hb.mint, hb.maxt) := by rw [hhead]; rfl
  have hpre : ¬ (c.headFmt < UnorderedHeadBlockFmt ∧ c.head.IsEmpty = true ∧
      c.blocks ≠ [] ∧ lastBlockMaxt c.blocks > e.t) := by
    rintro ⟨_, _, hbl, hgt⟩
    have hmem := List.getLast_mem hbl
    obtain ⟨z, hzmem, hzt⟩ := hinv.blkMaxtMem _ hmem
    have hzc : z ∈ chunkEntries ct c := by
      unfold chunkEntries
      exact List.mem_append.mpr (Or.inl (List.mem_flatten.mpr
        ⟨_, List.mem_map.mpr ⟨_, hmem, rfl⟩, hzmem⟩))
    have hle := hge z hzc
    have hlbm : lastBlockMaxt c.blocks = (c.blocks.getLast hbl).maxt := by
      unfold lastBlockMaxt
      rw [List.getLast?_eq_getLast _ hbl]
      rfl
    omega
  have hhb : ¬ (¬ hb.entries.isEmpty = true ∧ hb.maxt > e.t) := by
    rintro ⟨hne, hgt⟩
    have hhe : hb.entries ≠ [] := by simpa [List.isEmpty_iff] using hne
    obtain ⟨z, hzmem, hzt⟩ := hinv.headMaxtMem (by rw [hel]; exact hhe)
    rw [hbnd] at hzt
    simp only at hzt
    have hzc : z ∈ chunkEntries ct c := by
      unfold chunkEntries
      exact List.mem_append.mpr (Or.inr hzmem)
    have hle := hge z hzc
    omega
  unfold MemChunk.Append
  rw [if_neg hpre]
  simp only
  rw [hhead]
  simp only [HeadBlock.AppendH]
  unfold headBlock.Append
  rw [if_neg hhb]
  simp only [Except.map]
  split <;> split <;> split <;> rfl

theorem appendAll_ok_sorted (ct : CodecTable) :
    ∀ (es : List LEntry) (c0 : MemChunk),
    (∀ bs, (ct c0.encoding).decompress ((ct c0.encoding).compress bs) = bs) →
    OrdInv ct c0 → (∀ x ∈ es, wfEntry x) → List.Pairwise tle es →
    (∀ x ∈ chunkEntries ct c0, ∀ y ∈ es, x.t ≤ y.t) →
    ∃ c, appendAll ct c0 es = .ok c := by
  intro es
  induction es with
  | nil => intro c0 _ _ _ _ _; exact ⟨c0, rfl⟩
  | cons e tl ih =>
    intro c0 hc hinv hwf hsort hcross
    have hok : (c0.Append ct e).2.2 = none :=
      Append_ok_of_ge ct c0 e hinv (fun x hx => hcross x hx e (by simp))
    rcases hA : MemChunk.Append ct c0 e with ⟨c1, e1, er⟩
    have her : er = none := by rw [hA] at hok; exact hok
    subst her
    have hpres := Append_preserves_inv ct c0 e hc hinv (hwf e (by simp)) hok
    rw [hA] at hpres
    simp only at hpres
    obtain ⟨hinv1, hents1⟩ := hpres
    have he1 : c1.encoding = c0.encoding := by
      have hcfg := Append_preserves_cfg ct c0 e
      rw [hA] at hcfg
      exact hcfg.2.1
    obtain ⟨c, hc2⟩ := ih c1 (by rw [he1]; exact hc) hinv1
      (fun x hx => hwf x (by simp [hx]))
      hsort.of_cons
      (by
        intro x hx y hy
        rw [hents1] at hx
        rcases List.mem_append.mp hx with h | h
        · exact hcross x h y (by simp [hy])
        · simp only [List.mem_singleton] at h
          subst h
          exact List.rel_of_pairwise_cons hsort hy)
    refine ⟨c, ?_⟩
    simp only [appendAll, List.foldlM_cons, hA]
    simpa [appendAll, Except.bind] using hc2

theorem appendAll_bne (ct : CodecTable) :
    ∀ (es : List LEntry) (c0 c : MemChunk),
    (∀ bs, bs ≠ [] → (ct c0.encoding).compress bs ≠ []) →
    (∃ hb0, c0.head = .ordered hb0) → c0.format < chunkFormatV4 →
    (∀ blk ∈ c0.blocks, blk.b ≠ []) →
    appendAll ct c0 es = .ok c → ∀ blk ∈ c.blocks, blk.b ≠ [] := by
  intro es
  induction es with
  | nil =>
    intro c0 c _ _ _ hbne hall
    simp only [appendAll, List.foldlM_nil] at hall
    cases hall
    exact hbne
  | cons e tl ih =>
    intro c0 c hcne hordhead hfmt hbne hall
    obtain ⟨hb0, hhead⟩ := hordhead
    simp only [appendAll, List.foldlM_cons] at hall
    rcases hA : MemChunk.Append ct c0 e with ⟨c1, e1, er⟩
    rw [hA] at hall
    cases er with
    | some er2 => exact Except.noConfusion hall
    | none =>
      simp only at hall
      have hrest : appendAll ct c1 tl = .ok c := by
        simpa [appendAll, Except.bind] using hall
      have hok : (c0.Append ct e).2.2 = none := by rw [hA]
      obtain ⟨_, _, hcases⟩ := Append_ok_shape ct c0 e hb0 hhead hfmt hok
      rw [hA] at hcases
      simp only at hcases
      have hcfg := Append_preserves_cfg ct c0 e
      rw [hA] at hcfg
      obtain ⟨hf, he, _, _, _, _⟩ := hcfg
      refine ih c1 c (by rw [he]; exact hcne) ?_ (by rw [hf]; exact hfmt) ?_ hrest
      · rcases hcases with ⟨_, heq⟩ | ⟨_, heq⟩
        · rw [heq]
          exact ⟨hbAfter hb0 e, rfl⟩
        · rw [heq]
          exact ⟨{}, rfl⟩
      · rcases hcases with ⟨_, heq⟩ | ⟨_, heq⟩
        · rw [heq]
          exact hbne
        · rw [heq]
          intro blk hblk
          rcases List.mem_append.mp hblk with h | h
          · exact hbne blk h
          · simp only [List.mem_singleton] at h
            subst h
            show (ct c0.encoding).compress (encEntries (hbAfter hb0 e).entries) ≠ []
            apply hcne
            apply encEntries_ne_nil
            show hb0.entries ++ [(⟨e.t, e.s, []⟩ : LEntry)] ≠ []
            simp

theorem close_ok (ct : CodecTable) (c : MemChunk) (fuel : Nat)
    (hc : ∀ bs, (ct c.encoding).decompress ((ct c.encoding).compress bs) = bs)
    (hinv : OrdInv ct c) :
    closeF ct (fuel + 2) c = .ok (c.cut ct) := by
  obtain ⟨hinvc, _, _, _, _, _, _, _⟩ := cut_inv ct c hc hinv
  have hscan : (orderedScan (c.cut ct).blocks 0 true).1 = true := by
    apply orderedScan_true _ _ hinvc.blocksPairwise
    intro b0 hb0
    have hmem : b0 ∈ (c.cut ct).blocks := List.mem_of_mem_head? hb0
    obtain ⟨z, hzmem, hzt⟩ := hinvc.blkMintMem b0 hmem
    obtain ⟨h1, _, _, _⟩ := hinvc.blkWf b0 hmem z hzmem
    omega
  show reorderF ct (fuel + 1) (c.cut ct) = .ok (c.cut ct)
  simp only [reorderF]
  rw [if_pos hscan]

theorem reboundTail_spec (ct : CodecTable) (fuel bsz tsz encX : Nat)
    (hc : ∀ bs, (ct encX).decompress ((ct encX).compress bs) = bs)
    (F : List LEntry) (hFwf : ∀ x ∈ F, wfEntry x)
    (hFsort : List.Pairwise tle F) :
    (F = [] →
      (match appendAll ct (NewMemChunk encX OrderedHeadBlockFmt bsz tsz) F with
        | .error er => (.error er : Except ChunkErr MemChunk)
        | .ok nc => if nc.Size = 0 then .error .ErrSliceNoDataInRange
            else closeF ct (fuel + 2) nc) =
        (.error .ErrSliceNoDataInRange : Except ChunkErr MemChunk)) ∧
    (F ≠ [] →
      ∃ c', (match appendAll ct (NewMemChunk encX OrderedHeadBlockFmt bsz tsz) F with
        | .error er => (.error er : Except ChunkErr MemChunk)
        | .ok nc => if nc.Size = 0 then .error .ErrSliceNoDataInRange
            else closeF ct (fuel + 2) nc) = .ok c' ∧
        chunkEntries ct c' = F) := by
  have hcb : ∀ bs, (ct (NewMemChunk encX OrderedHeadBlockFmt bsz tsz).encoding).decompress
      ((ct (NewMemChunk encX OrderedHeadBlockFmt bsz tsz).encoding).compress bs) = bs := hc
  have hcross : ∀ x ∈ chunkEntries ct (NewMemChunk encX OrderedHeadBlockFmt bsz tsz),
      ∀ y ∈ F, x.t ≤ y.t := by
    intro x hx
    rw [chunkEntries_new ct encX OrderedHeadBlockFmt bsz tsz
      (by norm_num [OrderedHeadBlockFmt, UnorderedHeadBlockFmt])] at hx
    simp at hx
  obtain ⟨nc, hnc⟩ := appendAll_ok_sorted ct F
    (NewMemChunk encX OrderedHeadBlockFmt bsz tsz) hcb
    (OrdInv_new ct encX bsz tsz) hFwf hFsort hcross
  obtain ⟨hinvnc, hentsnc, hencnc, _, _, _, _⟩ := appendAll_inv ct F _ nc hcb
    (OrdInv_new ct encX bsz tsz) hFwf hnc
  rw [chunkEntries_new ct encX OrderedHeadBlockFmt bsz tsz
    (by norm_num [OrderedHeadBlockFmt, UnorderedHeadBlockFmt]),
    List.nil_append] at hentsnc
  have hsz : nc.Size = F.length := by
    rw [Size_eq_length ct nc hinvnc, hentsnc]
  have hcnc : ∀ bs, (ct nc.encoding).decompress ((ct nc.encoding).compress bs) = bs := by
    rw [hencnc]
    exact hc
  constructor
  · intro hFnil
    rw [hnc]
    simp only
    rw [if_pos (by rw [hsz, hFnil]; rfl)]
  · intro hFne
    rw [hnc]
    simp only
    rw [if_neg (by
      rw [hsz]
      intro hzero
      exact hFne (List.eq_nil_of_length_eq_zero hzero))]
    obtain ⟨hinvcut, hentscut, _, _, _, _, _, _⟩ := cut_inv ct nc hcnc hinvnc
    exact ⟨nc.cut ct, close_ok ct nc fuel hcnc hinvnc, by rw [hentscut, hentsnc]⟩

theorem ReboundF_spec (ct : CodecTable) (cc : MemChunk) (fuel : Nat)
    (hc : ∀ bs, (ct cc.encoding).decompress ((ct cc.encoding).compress bs) = bs)
    (hinvcc : OrdInv ct cc) (hbnecc : ∀ blk ∈ cc.blocks, blk.b ≠ [])
    (start endT : Int) :
    ((chunkEntries ct cc).filter (inRangeB start (endT + 1000000)) = [] →
      ReboundF ct (fuel + 3) cc start endT = .error .ErrSliceNoDataInRange) ∧
    ((chunkEntries ct cc).filter (inRangeB start (endT + 1000000)) ≠ [] →
      ∃ c', ReboundF ct (fuel + 3) cc start endT = .ok c' ∧
        chunkEntries ct c' =
          (chunkEntries ct cc).filter (inRangeB start (endT + 1000000))) := by
  have hiter := iterEntries_filter ct cc hinvcc hbnecc start (endT + 1000000)
  have hFwf : ∀ x ∈ (chunkEntries ct cc).filter (inRangeB start (endT + 1000000)),
      wfEntry x :=
    fun x hx => chunkEntries_wf ct cc hinvcc x (List.mem_of_mem_filter hx)
  have hFsort : List.Pairwise tle
      ((chunkEntries ct cc).filter (inRangeB start (endT + 1000000))) :=
    List.Pairwise.sublist (List.filter_sublist _) hinvcc.sorted
  have hhf := hinvcc.hfOrd
  show ((chunkEntries ct cc).filter (inRangeB start (endT + 1000000)) = [] →
      (ReboundF ct (fuel + 2 + 1) cc start endT) = .error .ErrSliceNoDataInRange) ∧ _
  simp only [ReboundF]
  rw [hiter, hhf]
  rw [if_neg (lt_irrefl OrderedHeadBlockFmt)]
  by_cases hbs : cc.blockSize > 0
  · rw [if_pos hbs]
    exact reboundTail_spec ct fuel cc.blockSize cc.targetSize cc.encoding hc _
      hFwf hFsort
  · rw [if_neg hbs]
    exact reboundTail_spec ct fuel defaultBlockSize cc.CompressedSizeC cc.encoding hc _
      hFwf hFsort

/-- C3 (corrected): for a chunk built by successful appends and then
closed, `Rebound(start, end, nil)` keeps exactly the original entries with
`start ≤ t < end + 1ms` — the upper bound is the iterator's exclusive `end`
extended by one millisecond, which admits entries with `end < t < end+1ms`
rather than the spec's inclusive `t ≤ end` — and it fails with
`ErrSliceNoDataInRange` exactly when no entry survives that window. -/
theorem rebound_range (ct : CodecTable) (enc blockSize targetSize : Nat)
    (es : List LEntry) (c cc : MemChunk) (start endT : Int)
    (hc : ∀ bs, (ct enc).decompress ((ct enc).compress bs) = bs)
    (hcne : ∀ bs, bs ≠ [] → (ct enc).compress bs ≠ [])
    (hwf : ∀ x ∈ es, wfEntry x)
    (hbuild : buildChunk ct enc OrderedHeadBlockFmt blockSize targetSize es = .ok c)
    (hclose : c.Close ct = .ok cc) :
    ((chunkEntries ct cc).filter (inRangeB start (endT + 1000000)) = [] →
      cc.Rebound ct start endT = .error .ErrSliceNoDataInRange) ∧
    ((chunkEntries ct cc).filter (inRangeB start (endT + 1000000)) ≠ [] →
      ∃ c', cc.Rebound ct start endT = .ok c' ∧
        chunkEntries ct c' =
          (chunkEntries ct cc).filter (inRangeB start (endT + 1000000))) := by
  have hc0 : ∀ bs,
      (ct (NewMemChunk enc OrderedHeadBlockFmt blockSize targetSize).encoding).decompress
        ((ct (NewMemChunk enc OrderedHeadBlockFmt blockSize targetSize).encoding).compress bs) = bs := hc
  obtain ⟨hinv, hents, henc, _, _, _, _⟩ := appendAll_inv ct es _ c hc0
    (OrdInv_new ct enc blockSize targetSize) hwf hbuild
  have hcc' : ∀ bs, (ct c.encoding).decompress ((ct c.encoding).compress bs) = bs := by
    rw [henc]
    exact hc
  have hcnec : ∀ bs, bs ≠ [] → (ct c.encoding).compress bs ≠ [] := by
    rw [henc]
    exact hcne
  have hbnec := appendAll_bne ct es _ c hcne ⟨{}, rfl⟩
    (show DefaultChunkFormat < chunkFormatV4 by
      norm_num [DefaultChunkFormat, chunkFormatV3, chunkFormatV4])
    (by
      intro blk hblk
      simp [NewMemChunk, newMemChunkWithFormat] at hblk)
    hbuild
  have hcloseeq : closeF ct 5 c = .ok (c.cut ct) := close_ok ct c 3 hcc' hinv
  have hcceq : cc = c.cut ct := by
    unfold MemChunk.Close at hclose
    rw [hcloseeq] at hclose
    injection hclose with h
    exact h.symm
  obtain ⟨hinvcut, hentscut, _, _, _, henccut, _, _⟩ := cut_inv ct c hcc' hinv
  have hbnecc : ∀ blk ∈ (c.cut ct).blocks, blk.b ≠ [] := cut_bne ct c hcnec hinv hbnec
  have hccc : ∀ bs, (ct (c.cut ct).encoding).decompress
      ((ct (c.cut ct).encoding).compress bs) = bs := by
    rw [henccut]
    exact hcc'
  subst hcceq
  exact ReboundF_spec ct (c.cut ct) 2 hccc hinvcut hbnecc start endT

def wC3es : List LEntry := [⟨3, [97], []⟩, ⟨5, [98], []⟩]

def wC3chunk : MemChunk :=
  (buildChunk idTable EncNone OrderedHeadBlockFmt 100 0 wC3es).toOption.getD
    (NewMemChunk 0 OrderedHeadBlockFmt 0 0)

def wC3cc : MemChunk :=
  (wC3chunk.Close idTable).toOption.getD (NewMemChunk 0 OrderedHeadBlockFmt 0 0)

/-- `Rebound(1, 4, nil)` of a closed chunk holding timestamps `3` and `5`
returns a chunk that still contains the entry with timestamp `5 > 4`: the
spec's "no entry with t > end is included" fails inside the millisecond
window above `end`. -/
theorem rebound_range_counterexample :
    ∃ c', wC3cc.Rebound idTable 1 4 = .ok c' ∧
      ∃ x ∈ chunkEntries idTable c', x.t > 4 := by
  have hc0 : ∀ bs,
      (idTable (NewMemChunk EncNone OrderedHeadBlockFmt 100 0).encoding).decompress
        ((idTable (NewMemChunk EncNone OrderedHeadBlockFmt 100 0).encoding).compress bs) = bs :=
    fun _ => rfl
  have hbuild : buildChunk idTable EncNone OrderedHeadBlockFmt 100 0 wC3es =
      .ok wC3chunk := by rfl
  obtain ⟨hinv, hents, henc, _, _, _, _⟩ := appendAll_inv idTable wC3es _ wC3chunk
    hc0 (OrdInv_new idTable EncNone 100 0) (by decide) hbuild
  have hcc' : ∀ bs, (idTable wC3chunk.encoding).decompress
      ((idTable wC3chunk.encoding).compress bs) = bs := fun _ => rfl
  have hcnec : ∀ bs, bs ≠ [] → (idTable wC3chunk.encoding).compress bs ≠ [] :=
    fun _ h => h
  have hbnec := appendAll_bne idTable wC3es _ wC3chunk (fun _ h => h) ⟨{}, rfl⟩
    (show DefaultChunkFormat < chunkFormatV4 by
      norm_num [DefaultChunkFormat, chunkFormatV3, chunkFormatV4])
    (by
      intro blk hblk
      simp [NewMemChunk, newMemChunkWithFormat] at hblk)
    hbuild
  obtain ⟨hinvcut, hentscut, _, _, _, henccut, _, _⟩ :=
    cut_inv idTable wC3chunk hcc' hinv
  have hbnecc : ∀ blk ∈ (wC3chunk.cut idTable).blocks, blk.b ≠ [] :=
    cut_bne idTable wC3chunk hcnec hinv hbnec
  have hccc : ∀ bs, (idTable (wC3chunk.cut idTable).encoding).decompress
      ((idTable (wC3chunk.cut idTable).encoding).compress bs) = bs := fun _ => rfl
  have hcceq : wC3cc = wC3chunk.cut idTable := by rfl
  have hspec := ReboundF_spec idTable (wC3chunk.cut idTable) 2 hccc hinvcut
    hbnecc 1 4
  have hentsval : chunkEntries idTable (wC3chunk.cut idTable) = wC3es := by
    rw [hentscut, hents]
    rfl
  rw [hentsval] at hspec
  obtain ⟨c', hok, hentsc'⟩ := hspec.2 (by decide)
  refine ⟨c', ?_, ?_⟩
  · rw [hcceq]
    exact hok
  · rw [hentsc']
    decide

theorem rebound_range_witness :
    ((chunkEntries idTable wC3cc).filter (inRangeB 1 (4 + 1000000)) = [] →
      wC3cc.Rebound idTable 1 4 = .error .ErrSliceNoDataInRange) ∧
    ((chunkEntries idTable wC3cc).filter (inRangeB 1 (4 + 1000000)) ≠ [] →
      ∃ c', wC3cc.Rebound idTable 1 4 = .ok c' ∧
        chunkEntries idTable c' =
          (chunkEntries idTable wC3cc).filter (inRangeB 1 (4 + 1000000))) :=
  rebound_range idTable EncNone 100 0 wC3es wC3chunk wC3cc 1 4
    (fun _ => rfl) (fun _ h => h) (by decide) (by rfl) (by rfl)

theorem be64_putBE64 (x : Nat) (rest : Bytes) (hx : x < 2 ^ 64) :
    be64 (putBE64 x ++ rest) = x := by
  simp only [putBE64, List.cons_append, List.nil_append, be64]
  have h16 : x / 2 ^ 16 = x / 2 ^ 8 / 2 ^ 8 := by rw [Nat.div_div_eq_div_mul]; norm_num
  have h24 : x / 2 ^ 24 = x / 2 ^ 16 / 2 ^ 8 := by rw [Nat.div_div_eq_div_mul]; norm_num
  have h32 : x / 2 ^ 32 = x / 2 ^ 24 / 2 ^ 8 := by rw [Nat.div_div_eq_div_mul]; norm_num
  have h40 : x / 2 ^ 40 = x / 2 ^ 32 / 2 ^ 8 := by rw [Nat.div_div_eq_div_mul]; norm_num
  have h48 : x / 2 ^ 48 = x / 2 ^ 40 / 2 ^ 8 := by rw [Nat.div_div_eq_div_mul]; norm_num
  have h56 : x / 2 ^ 56 = x / 2 ^ 48 / 2 ^ 8 := by rw [Nat.div_div_eq_div_mul]; norm_num
  rw [h56, h48, h40, h32, h24, h16]
  generalize hg : x / 2 ^ 8 = y at *
  omega

end Chunkenc
